import Mathlib

/- Verification of the RTTM segment model and its transformations, embedded
   from src/code/forced_alignment.py and src/code/evaluation.py.
   Times are represented by rationals; the Python code computes with
   floating-point numbers, but every algorithm below is arithmetic-generic
   (comparisons, +, -, /), so the rational embedding preserves the control
   flow exactly.  Fallible Python code (raised exceptions) is embedded as
   Except values. -/

/-- A labeled time interval, the `[start_time, end_time, speaker]` triples
used throughout forced_alignment.py. -/
structure Seg where
  start : ℚ
  stop : ℚ
  label : String
deriving DecidableEq, Repr

/-- Error raised by `merge_close_numbers` when invoked on an empty list
(Python raises IndexError at `l[0]`; the spec names this condition
EmptyInputError). -/
inductive MergeError where
  | emptyInput
deriving DecidableEq, Repr

/-- Loop of merge_close_numbers (forced_alignment.py lines 145-149):
`cur` is the mutable last element of `merged_list`, the elements already
emitted are prepended by the recursion. -/
def mergeAux (cur : Seg) (rest : List Seg) (threshold : ℚ) : List Seg :=
  match rest with
  | [] => [cur]
  | i :: tl =>
    if i.start - cur.stop < threshold then
      mergeAux { cur with stop := i.stop } tl threshold
    else
      cur :: mergeAux i tl threshold

/-- merge_close_numbers (forced_alignment.py lines 135-150).  The Python
default for `threshold` is 0.5; callers below pass it explicitly.  On an
empty list the Python code fails at `merged_list = [l[0]]`. -/
def merge_close_numbers (l : List Seg) (threshold : ℚ) : Except MergeError (List Seg) :=
  match l with
  | [] => .error .emptyInput
  | a :: t => .ok (mergeAux a t threshold)

/-- The last element of the run `a :: r` (no proof obligation form). -/
def lastStop (a : Seg) (r : List Seg) : Seg :=
  r.getLastD a

/-- Specification-side run splitter, written from the claim's words: collect
the maximal chain of records each of whose gap to the current merged end
(= the previously absorbed record's end) is strictly below the threshold;
return the chain and the remaining records. -/
def runSplit (τ : ℚ) (a : Seg) : List Seg → List Seg × List Seg
  | [] => ([], [])
  | b :: t =>
    if b.start - a.stop < τ then
      let p := runSplit τ b t
      (b :: p.1, p.2)
    else
      ([], b :: t)

theorem runSplit_snd_length (τ : ℚ) :
    ∀ (t : List Seg) (a : Seg), (runSplit τ a t).2.length ≤ t.length := by
  intro t
  induction t with
  | nil => intro a; simp [runSplit]
  | cons b tl ih =>
    intro a
    by_cases h : b.start - a.stop < τ
    · simpa [runSplit, h] using Nat.le_succ_of_le (ih b)
    · simp [runSplit, h]

/-- Specification-side merger, written from the claim's words: each maximal
run of records whose successive gaps are below the threshold is coalesced
into one record spanning the run's first start to the run's last end,
retaining the first record's label; non-mergeable records pass through. -/
def mergeSpec (τ : ℚ) : List Seg → List Seg
  | [] => []
  | a :: t =>
    let p := runSplit τ a t
    ⟨a.start, (lastStop a p.1).stop, a.label⟩ :: mergeSpec τ p.2
termination_by l => l.length
decreasing_by
  simp only [List.length_cons]
  exact Nat.lt_succ_of_le (runSplit_snd_length _ _ _)

theorem lastStop_cons (a b : Seg) (r : List Seg) :
    lastStop a (b :: r) = lastStop b r := by
  cases r with
  | nil => rfl
  | cons c r => simp [lastStop, List.getLastD, List.getLast?_cons_cons]

theorem mergeAux_runSplit (τ : ℚ) :
    ∀ (t : List Seg) (s : ℚ) (lab : String) (a : Seg),
      mergeAux ⟨s, a.stop, lab⟩ t τ =
        ⟨s, (lastStop a (runSplit τ a t).1).stop, lab⟩ :: mergeSpec τ (runSplit τ a t).2 := by
  intro t
  induction t with
  | nil =>
    intro s lab a
    simp [mergeAux, runSplit, lastStop, mergeSpec]
  | cons b tl ih =>
    intro s lab a
    by_cases h : b.start - a.stop < τ
    · have := ih s lab b
      simp only [mergeAux, h, if_pos, runSplit, lastStop_cons]
      exact this
    · simp only [mergeAux, h, if_neg, not_false_iff, runSplit]
      have hb := ih b.start b.label b
      have hb2 : mergeAux b tl τ = mergeSpec τ (b :: tl) := by
        rw [mergeSpec]
        simpa using hb
      simp [h, hb2, lastStop, mergeSpec]

theorem mergeAux_eq_mergeSpec (τ : ℚ) (a : Seg) (t : List Seg) :
    mergeAux a t τ = mergeSpec τ (a :: t) := by
  have h := mergeAux_runSplit τ t a.start a.label a
  rw [mergeSpec]
  simpa using h

/-- The run decomposition of a sequence under a gap threshold: each run is
its first record paired with the chain of records absorbed after it
(`runSplit`).  Only the time fields are inspected; labels never are. -/
def runsOf (τ : ℚ) : List Seg → List (Seg × List Seg)
  | [] => []
  | a :: t =>
    let p := runSplit τ a t
    (a, p.1) :: runsOf τ p.2
termination_by l => l.length
decreasing_by
  simp only [List.length_cons]
  exact Nat.lt_succ_of_le (runSplit_snd_length _ _ _)

theorem mergeSpec_eq_runsOf_aux (τ : ℚ) :
    ∀ (n : ℕ) (l : List Seg), l.length ≤ n →
      mergeSpec τ l = (runsOf τ l).map
        (fun run => ⟨run.1.start, (lastStop run.1 run.2).stop, run.1.label⟩) := by
  intro n
  induction n with
  | zero =>
    intro l h
    cases l with
    | nil => simp [mergeSpec, runsOf]
    | cons a t => simp at h
  | succ n ih =>
    intro l h
    cases l with
    | nil => simp [mergeSpec, runsOf]
    | cons a t =>
      rw [mergeSpec, runsOf]
      simp only [List.map_cons]
      congr 1
      refine ih (runSplit τ a t).2 ?_
      have hr := runSplit_snd_length τ t a
      simp only [List.length_cons] at h
      omega

theorem mergeSpec_eq_runsOf (τ : ℚ) (l : List Seg) :
    mergeSpec τ l = (runsOf τ l).map
      (fun run => ⟨run.1.start, (lastStop run.1 run.2).stop, run.1.label⟩) :=
  mergeSpec_eq_runsOf_aux τ l.length l le_rfl

/-- Relabeling a segment, keeping its time fields. -/
def relabel (f : String → String) (r : Seg) : Seg :=
  { r with label := f r.label }

theorem mergeAux_relabel (f : String → String) (τ : ℚ) :
    ∀ (t : List Seg) (cur : Seg),
      mergeAux (relabel f cur) (t.map (relabel f)) τ = (mergeAux cur t τ).map (relabel f) := by
  intro t
  induction t with
  | nil => intro cur; simp [mergeAux]
  | cons b tl ih =>
    intro cur
    by_cases h : b.start - cur.stop < τ
    · have : relabel f { cur with stop := b.stop } = { relabel f cur with stop := (relabel f b).stop } := by
        simp [relabel]
      simp only [List.map_cons, mergeAux, relabel, h, if_pos]
      have h2 := ih { cur with stop := b.stop }
      simpa [relabel] using h2
    · simp only [List.map_cons, mergeAux, relabel, h, if_neg, not_false_iff]
      have h2 := ih b
      simp only [relabel] at h2
      simp [h2]

theorem mergeAux_mem_start_label (τ : ℚ) :
    ∀ (t : List Seg) (cur r : Seg), r ∈ mergeAux cur t τ →
      (r.start = cur.start ∧ r.label = cur.label) ∨
        ∃ x ∈ t, r.start = x.start ∧ r.label = x.label := by
  intro t
  induction t with
  | nil =>
    intro cur r hr
    simp [mergeAux] at hr
    subst hr; left; exact ⟨rfl, rfl⟩
  | cons b tl ih =>
    intro cur r hr
    by_cases h : b.start - cur.stop < τ
    · simp only [mergeAux, h, if_pos] at hr
      rcases ih _ _ hr with h1 | ⟨x, hx, hs⟩
      · left; simpa using h1
      · right; exact ⟨x, List.mem_cons_of_mem _ hx, hs⟩
    · simp only [mergeAux, h, if_neg, not_false_iff, List.mem_cons] at hr
      rcases hr with rfl | hr
      · left; exact ⟨rfl, rfl⟩
      · rcases ih _ _ hr with h1 | ⟨x, hx, hs⟩
        · right; exact ⟨b, List.mem_cons_self _ _, h1⟩
        · right; exact ⟨x, List.mem_cons_of_mem _ hx, hs⟩

/-- C1: on a non-empty, ordered-by-start input and any gap threshold, the
segment merger coalesces every maximal run of consecutive records whose
gaps are strictly below the threshold into one record spanning the run's
first start to the run's last end, keeping the run's first label and
passing non-mergeable records through; in particular the spec scenario
`[(0,1,A), (1.3,2,A), (5,6,A)]`, τ = 0.5, yields `[(0,2,A), (5,6,A)]`. -/
theorem merge_close_numbers_matches_greedy_spec :
    (∀ (l : List Seg) (τ : ℚ), l ≠ [] →
        l.Pairwise (fun p q => p.start ≤ q.start) →
        merge_close_numbers l τ = .ok (mergeSpec τ l)) ∧
      merge_close_numbers [⟨0, 1, "A"⟩, ⟨13/10, 2, "A"⟩, ⟨5, 6, "A"⟩] (1/2) =
        .ok [⟨0, 2, "A"⟩, ⟨5, 6, "A"⟩] := by
  constructor
  · intro l τ hne _
    match l with
    | a :: t => simp [merge_close_numbers, mergeAux_eq_mergeSpec]
  · norm_num [merge_close_numbers, mergeAux]

/-- Witness for C1 at the spec scenario input. -/
theorem merge_close_numbers_matches_greedy_spec_witness :
    merge_close_numbers [⟨0, 1, "A"⟩, ⟨13/10, 2, "A"⟩, ⟨5, 6, "A"⟩] (1/2) =
      .ok (mergeSpec (1/2) [⟨0, 1, "A"⟩, ⟨13/10, 2, "A"⟩, ⟨5, 6, "A"⟩]) :=
  merge_close_numbers_matches_greedy_spec.1 _ _ (by simp)
    (by norm_num [List.pairwise_cons])

/-- C9: invoking the segment merger on an empty sequence fails with the
empty-input error (the Python code raises at `l[0]`; the spec names the
condition EmptyInputError), and the Except value propagates to callers. -/
theorem merge_close_numbers_empty_fails (τ : ℚ) :
    merge_close_numbers [] τ = .error .emptyInput := rfl

/-- C10: the merger's coalescing decision reads only the time fields: two
close records merge even when their labels differ (keeping the first
label); merging commutes with any relabeling of the input (so no decision
depends on labels); and on every non-empty input the output is exactly the
per-run collapse of the label-blind run decomposition `runsOf`, so every
output record's start and label are the start and label of the first input
record of its run, unchanged. -/
theorem merge_close_numbers_ignores_labels :
    (∀ (a b : Seg) (τ : ℚ), a.label ≠ b.label → b.start - a.stop < τ →
        merge_close_numbers [a, b] τ = .ok [⟨a.start, b.stop, a.label⟩]) ∧
      (∀ (f : String → String) (l : List Seg) (τ : ℚ),
        merge_close_numbers (l.map (relabel f)) τ =
          (merge_close_numbers l τ).map (List.map (relabel f))) ∧
      (∀ (l : List Seg) (τ : ℚ), l ≠ [] →
        merge_close_numbers l τ =
          .ok ((runsOf τ l).map
            (fun run => ⟨run.1.start, (lastStop run.1 run.2).stop, run.1.label⟩))) := by
  refine ⟨?_, ?_, ?_⟩
  · intro a b τ hlab hgap
    simp [merge_close_numbers, mergeAux, hgap]
  · intro f l τ
    cases l with
    | nil => rfl
    | cons a t =>
      simp only [List.map_cons, merge_close_numbers, Except.map]
      have h := mergeAux_relabel f τ t a
      simp only [relabel] at h ⊢
      rw [h]
  · intro l τ hne
    match l with
    | a :: t =>
      simp only [merge_close_numbers]
      rw [mergeAux_eq_mergeSpec, mergeSpec_eq_runsOf]

/-- Witness for C10: a three-record chain with three different labels (gaps
0.3 and 0.2, both below 0.5) collapses to its run decomposition, keeping
the run head's start and label. -/
theorem merge_close_numbers_ignores_labels_witness :
    merge_close_numbers [⟨0, 1, "A"⟩, ⟨13/10, 2, "B"⟩, ⟨22/10, 3, "C"⟩] (1/2) =
      .ok ((runsOf (1/2) [⟨0, 1, "A"⟩, ⟨13/10, 2, "B"⟩, ⟨22/10, 3, "C"⟩]).map
        (fun run => ⟨run.1.start, (lastStop run.1 run.2).stop, run.1.label⟩)) :=
  merge_close_numbers_ignores_labels.2.2 _ _ (by simp)

/-- Largest `stop` over the non-empty list `a :: t` (total span numerator). -/
def maxStop (a : Seg) (t : List Seg) : ℚ :=
  t.foldl (fun m r => max m r.stop) a.stop

/-- Smallest `start` over the non-empty list `a :: t`. -/
def minStart (a : Seg) (t : List Seg) : ℚ :=
  t.foldl (fun m r => min m r.start) a.start

theorem foldl_max_stop_le (B : ℚ) :
    ∀ (t : List Seg) (m : ℚ), m ≤ B → (∀ r ∈ t, r.stop ≤ B) →
      t.foldl (fun m r => max m r.stop) m ≤ B := by
  intro t
  induction t with
  | nil => intro m hm _; simpa using hm
  | cons b tl ih =>
    intro m hm hb
    simp only [List.foldl_cons]
    exact ih _ (max_le hm (hb b (List.mem_cons_self _ _)))
      (fun r hr => hb r (List.mem_cons_of_mem _ hr))

theorem seed_le_foldl_max_stop :
    ∀ (t : List Seg) (m : ℚ), m ≤ t.foldl (fun m r => max m r.stop) m := by
  intro t
  induction t with
  | nil => intro m; simp
  | cons b tl ih =>
    intro m
    simp only [List.foldl_cons]
    exact le_trans (le_max_left _ _) (ih _)

theorem mem_le_foldl_max_stop :
    ∀ (t : List Seg) (m : ℚ) (r : Seg), r ∈ t →
      r.stop ≤ t.foldl (fun m r => max m r.stop) m := by
  intro t
  induction t with
  | nil => intro m r hr; simp at hr
  | cons b tl ih =>
    intro m r hr
    simp only [List.foldl_cons]
    rcases List.mem_cons.mp hr with rfl | hr
    · exact le_trans (le_max_right _ _) (seed_le_foldl_max_stop _ _)
    · exact ih _ _ hr

theorem le_foldl_min_start (B : ℚ) :
    ∀ (t : List Seg) (m : ℚ), B ≤ m → (∀ r ∈ t, B ≤ r.start) →
      B ≤ t.foldl (fun m r => min m r.start) m := by
  intro t
  induction t with
  | nil => intro m hm _; simpa using hm
  | cons b tl ih =>
    intro m hm hb
    simp only [List.foldl_cons]
    exact ih _ (le_min hm (hb b (List.mem_cons_self _ _)))
      (fun r hr => hb r (List.mem_cons_of_mem _ hr))

theorem foldl_min_start_le_seed :
    ∀ (t : List Seg) (m : ℚ), t.foldl (fun m r => min m r.start) m ≤ m := by
  intro t
  induction t with
  | nil => intro m; simp
  | cons b tl ih =>
    intro m
    simp only [List.foldl_cons]
    exact le_trans (ih _) (min_le_left _ _)

theorem lastStop_mem : ∀ (t : List Seg) (a : Seg), lastStop a t ∈ a :: t := by
  intro t
  induction t with
  | nil => intro a; simp [lastStop, List.getLastD]
  | cons b tl ih =>
    intro a
    rw [lastStop_cons]
    exact List.mem_cons_of_mem _ (ih b)

theorem stop_le_lastStop_of_sorted :
    ∀ (t : List Seg) (a : Seg), (a :: t).Pairwise (fun p q => p.stop ≤ q.stop) →
      ∀ r ∈ a :: t, r.stop ≤ (lastStop a t).stop := by
  intro t
  induction t with
  | nil =>
    intro a _ r hr
    simp only [List.mem_singleton] at hr
    subst hr; simp [lastStop, List.getLastD]
  | cons b tl ih =>
    intro a hp r hr
    rw [lastStop_cons]
    rcases List.mem_cons.mp hr with rfl | hr
    · have hhead := (List.pairwise_cons.mp hp).1
      exact hhead _ (lastStop_mem tl b)
    · exact ih b (List.pairwise_cons.mp hp).2 r hr

theorem minStart_eq_of_sorted (a : Seg) (t : List Seg)
    (h : (a :: t).Pairwise (fun p q => p.start ≤ q.start)) :
    minStart a t = a.start := by
  refine le_antisymm (foldl_min_start_le_seed _ _) ?_
  exact le_foldl_min_start _ _ _ le_rfl (fun r hr => (List.pairwise_cons.mp h).1 r hr)

theorem maxStop_eq_of_sorted (a : Seg) (t : List Seg)
    (h : (a :: t).Pairwise (fun p q => p.stop ≤ q.stop)) :
    maxStop a t = (lastStop a t).stop := by
  refine le_antisymm ?_ ?_
  · exact foldl_max_stop_le _ _ _
      (stop_le_lastStop_of_sorted t a h a (List.mem_cons_self _ _))
      (fun r hr => stop_le_lastStop_of_sorted t a h r (List.mem_cons_of_mem _ hr))
  · rcases List.mem_cons.mp (lastStop_mem t a) with heq | hmem
    · rw [heq]; exact seed_le_foldl_max_stop t a.stop
    · exact mem_le_foldl_max_stop t a.stop _ hmem

theorem mergeAux_length (τ : ℚ) :
    ∀ (t : List Seg) (cur : Seg), (mergeAux cur t τ).length ≤ t.length + 1 := by
  intro t
  induction t with
  | nil => intro cur; simp [mergeAux]
  | cons b tl ih =>
    intro cur
    by_cases h : b.start - cur.stop < τ
    · simp only [mergeAux, h, if_pos]
      exact le_trans (ih _) (by simp)
    · simp only [mergeAux, h, if_neg, not_false_iff, List.length_cons]
      exact Nat.succ_le_succ (ih b)

theorem mergeAux_head (τ : ℚ) :
    ∀ (t : List Seg) (cur : Seg), ∃ c u, mergeAux cur t τ = c :: u ∧
      c.start = cur.start ∧ c.label = cur.label := by
  intro t
  induction t with
  | nil => intro cur; exact ⟨cur, [], rfl, rfl, rfl⟩
  | cons b tl ih =>
    intro cur
    by_cases h : b.start - cur.stop < τ
    · rcases ih { cur with stop := b.stop } with ⟨c, u, he, hs, hl⟩
      exact ⟨c, u, by simp only [mergeAux, h, if_pos]; exact he, hs, hl⟩
    · exact ⟨cur, mergeAux b tl τ, by simp only [mergeAux, h, if_neg, not_false_iff], rfl, rfl⟩

theorem mergeAux_mem_stop (τ : ℚ) :
    ∀ (t : List Seg) (cur r : Seg), r ∈ mergeAux cur t τ →
      r.stop = cur.stop ∨ ∃ x ∈ t, r.stop = x.stop := by
  intro t
  induction t with
  | nil =>
    intro cur r hr
    simp only [mergeAux, List.mem_singleton] at hr
    subst hr; left; rfl
  | cons b tl ih =>
    intro cur r hr
    by_cases h : b.start - cur.stop < τ
    · simp only [mergeAux, h, if_pos] at hr
      rcases ih _ _ hr with h1 | ⟨x, hx, hs⟩
      · right; exact ⟨b, List.mem_cons_self _ _, h1⟩
      · right; exact ⟨x, List.mem_cons_of_mem _ hx, hs⟩
    · simp only [mergeAux, h, if_neg, not_false_iff, List.mem_cons] at hr
      rcases hr with rfl | hr
      · left; rfl
      · rcases ih _ _ hr with h1 | ⟨x, hx, hs⟩
        · right; exact ⟨b, List.mem_cons_self _ _, h1⟩
        · right; exact ⟨x, List.mem_cons_of_mem _ hx, hs⟩

theorem getLastD_stop_congr :
    ∀ (t : List Seg) (x y : Seg), x.stop = y.stop →
      (t.getLastD x).stop = (t.getLastD y).stop := by
  intro t x y h
  cases t with
  | nil => simpa [List.getLastD] using h
  | cons c tl =>
    have h1 := lastStop_cons x c tl
    have h2 := lastStop_cons y c tl
    simp only [lastStop] at h1 h2
    rw [h1, h2]

theorem mergeAux_getLastD_stop (τ : ℚ) :
    ∀ (t : List Seg) (cur d : Seg),
      ((mergeAux cur t τ).getLastD d).stop = (t.getLastD cur).stop := by
  intro t
  induction t with
  | nil => intro cur d; simp [mergeAux, List.getLastD]
  | cons b tl ih =>
    intro cur d
    by_cases h : b.start - cur.stop < τ
    · simp only [mergeAux, h, if_pos]
      rw [ih { cur with stop := b.stop } d]
      have hc := lastStop_cons cur b tl
      simp only [lastStop] at hc
      rw [hc]
      exact getLastD_stop_congr tl _ b rfl
    · simp only [mergeAux, h, if_neg, not_false_iff]
      have hc1 := lastStop_cons d cur (mergeAux b tl τ)
      have hc2 := lastStop_cons cur b tl
      simp only [lastStop] at hc1 hc2
      rw [hc1, hc2]
      exact ih b cur

/-- C4 (amended): the merged record count never exceeds the input count
(any non-empty input); total span `max stop - min start` is preserved when
both the starts and the ends of the input are nondecreasing.  (The
original unconditional span claim is refuted by
`merge_close_numbers_span_counterexample`.) -/
theorem merge_close_numbers_span_and_count (a : Seg) (t : List Seg) (τ : ℚ) :
    (∃ m, merge_close_numbers (a :: t) τ = .ok m ∧ m.length ≤ (a :: t).length) ∧
      ((a :: t).Pairwise (fun p q => p.start ≤ q.start) →
        (a :: t).Pairwise (fun p q => p.stop ≤ q.stop) →
        ∃ b u, merge_close_numbers (a :: t) τ = .ok (b :: u) ∧
          maxStop b u - minStart b u = maxStop a t - minStart a t) := by
  constructor
  · exact ⟨mergeAux a t τ, rfl, by simpa using mergeAux_length τ t a⟩
  · intro hstart hstop
    rcases mergeAux_head τ t a with ⟨b, u, he, hbs, hbl⟩
    refine ⟨b, u, by simp [merge_close_numbers, he], ?_⟩
    have hmem_out : ∀ r ∈ b :: u, r ∈ mergeAux a t τ := by rw [he]; intro r hr; exact hr
    -- minimum start of the output equals a.start
    have hmin_out : minStart b u = a.start := by
      refine le_antisymm ?_ ?_
      · calc minStart b u ≤ b.start := foldl_min_start_le_seed _ _
          _ = a.start := hbs
      · refine le_foldl_min_start _ _ _ (le_of_eq hbs.symm) ?_
        intro r hr
        have hr2 : r ∈ mergeAux a t τ := hmem_out r (List.mem_cons_of_mem _ hr)
        rcases mergeAux_mem_start_label τ t a r hr2 with ⟨h1, _⟩ | ⟨x, hx, h1, _⟩
        · exact le_of_eq h1.symm
        · rw [h1]; exact (List.pairwise_cons.mp hstart).1 x hx
    -- maximum stop of the output equals the last stop of the input
    have hstop_le : ∀ r ∈ b :: u, r.stop ≤ (lastStop a t).stop := by
      intro r hr
      rcases mergeAux_mem_stop τ t a r (hmem_out r hr) with h1 | ⟨x, hx, h1⟩
      · rw [h1]
        exact stop_le_lastStop_of_sorted t a hstop a (List.mem_cons_self _ _)
      · rw [h1]
        exact stop_le_lastStop_of_sorted t a hstop x (List.mem_cons_of_mem _ hx)
    have hlast_out : (lastStop b u).stop = (lastStop a t).stop := by
      have h1 := mergeAux_getLastD_stop τ t a a
      rw [he] at h1
      have h2 := lastStop_cons a b u
      simp only [lastStop] at h2 ⊢
      rw [← h2, h1]
    have hmax_out : maxStop b u = (lastStop a t).stop := by
      refine le_antisymm ?_ ?_
      · exact foldl_max_stop_le _ _ _ (hstop_le b (List.mem_cons_self _ _))
          (fun r hr => hstop_le r (List.mem_cons_of_mem _ hr))
      · rw [← hlast_out]
        rcases List.mem_cons.mp (lastStop_mem u b) with heq | hmem
        · rw [heq]; exact seed_le_foldl_max_stop u b.stop
        · exact mem_le_foldl_max_stop u b.stop _ hmem
    rw [hmin_out, hmax_out, maxStop_eq_of_sorted a t hstop, minStart_eq_of_sorted a t hstart]

/-- Witness for C4 at a sorted concrete input. -/
theorem merge_close_numbers_span_and_count_witness :
    ∃ b u, merge_close_numbers [⟨0, 1, "A"⟩, ⟨13/10, 2, "A"⟩] (1/2) = .ok (b :: u) ∧
      maxStop b u - minStart b u =
        maxStop ⟨0, 1, "A"⟩ [⟨13/10, 2, "A"⟩] - minStart ⟨0, 1, "A"⟩ [⟨13/10, 2, "A"⟩] :=
  (merge_close_numbers_span_and_count ⟨0, 1, "A"⟩ [⟨13/10, 2, "A"⟩] (1/2)).2
    (by norm_num [List.pairwise_cons]) (by norm_num [List.pairwise_cons])

/-- Counterexample to C4 as stated: an input ordered by start whose second
record ends before the first record does; merging swallows the larger end
and the total span shrinks from 10 to 1. -/
theorem merge_close_numbers_span_counterexample :
    merge_close_numbers [⟨0, 10, "A"⟩, ⟨1/10, 1, "A"⟩] (1/2) = .ok [⟨0, 1, "A"⟩] ∧
      maxStop ⟨0, 10, "A"⟩ [⟨1/10, 1, "A"⟩] - minStart ⟨0, 10, "A"⟩ [⟨1/10, 1, "A"⟩] = 10 ∧
      maxStop ⟨0, 1, "A"⟩ [] - minStart ⟨0, 1, "A"⟩ [] = 1 ∧
      (1 : ℚ) ≠ 10 := by
  refine ⟨?_, ?_, ?_, by norm_num⟩
  · norm_num [merge_close_numbers, mergeAux]
  · norm_num [maxStop, minStart]
  · norm_num [maxStop, minStart]

/-- A parsed RTTM record as returned by parse_rttm_file (evaluation.py
lines 110-128): `(start_time, duration, speaker_id)`. -/
structure RttmRec where
  start : ℚ
  duration : ℚ
  label : String
deriving DecidableEq, Repr

/-- Arithmetic fault (Python ZeroDivisionError). -/
inductive EvalError where
  | zeroDivision
deriving DecidableEq, Repr

/-- The consecutive-pair overlap intervals of calculate_overlap_duration
(evaluation.py lines 139-151): for each adjacent pair, the interval
`[max(start_i, start_j), min(end_i, end_j)]` with `end = start + duration`,
kept only when `overlap_start < overlap_end`. -/
def overlapTuple : List RttmRec → List (ℚ × ℚ)
  | a :: b :: rest =>
    (if max a.start b.start < min (a.start + a.duration) (b.start + b.duration) then
      [(max a.start b.start, min (a.start + a.duration) (b.start + b.duration))]
    else []) ++ overlapTuple (b :: rest)
  | _ => []

/-- The attributed-duration list of calculate_overlap_duration
(evaluation.py lines 152-159), with the running `last_end`. -/
def overlapsFrom (lastEnd : ℚ) : List (ℚ × ℚ) → List ℚ
  | [] => []
  | (s, e) :: tl => (if s ≤ lastEnd then e - lastEnd else e - s) :: overlapsFrom e tl

/-- The value of `last_end` after the attribution loop. -/
def finalLastEnd (lastEnd : ℚ) : List (ℚ × ℚ) → ℚ
  | [] => lastEnd
  | (_, e) :: tl => finalLastEnd e tl

/-- calculate_overlap_duration (evaluation.py lines 131-162), on the parsed
record list.  Python computes `total / last_end` when the attributed list
is non-empty; a zero `last_end` there would raise ZeroDivisionError, which
is embedded as the error value. -/
def calculate_overlap_duration (speaker_info : List RttmRec) : Except EvalError (ℚ × ℚ) :=
  let tuples := overlapTuple speaker_info
  let overlaps := overlapsFrom 0 tuples
  let total := overlaps.sum
  if overlaps = [] then .ok (total, 0)
  else if finalLastEnd 0 tuples = 0 then .error .zeroDivision
  else .ok (total, total / finalLastEnd 0 tuples)

/-- View of a segment as the RTTM record carrying `duration = end - start`. -/
def rttmOfSeg (s : Seg) : RttmRec :=
  ⟨s.start, s.stop - s.start, s.label⟩

/-- Specification-side qualifying overlaps, written from the claim's words:
for each consecutive pair, the interval
`[max(start_i, start_j), min(end_i, end_j)]` whenever strictly non-empty. -/
def qualifyingOverlaps (segs : List Seg) : List (ℚ × ℚ) :=
  (segs.zip segs.tail).filterMap (fun p =>
    if max p.1.start p.2.start < min p.1.stop p.2.stop then
      some (max p.1.start p.2.start, min p.1.stop p.2.stop)
    else none)

/-- Specification-side accumulated total, written from the claim's words:
attribute `e - last_end` when `s ≤ last_end`, else `e - s`, then set
`last_end = e`. -/
def totalOverlapSpec (lastEnd : ℚ) : List (ℚ × ℚ) → ℚ
  | [] => 0
  | (s, e) :: tl => (if s ≤ lastEnd then e - lastEnd else e - s) + totalOverlapSpec e tl

/-- Specification-side relative overlap: total divided by the end of the
final overlap interval, or 0 when no qualifying overlap was found. -/
def relOverlapSpec (segs : List Seg) : ℚ :=
  if qualifyingOverlaps segs = [] then 0
  else totalOverlapSpec 0 (qualifyingOverlaps segs) / finalLastEnd 0 (qualifyingOverlaps segs)

theorem overlapTuple_map (segs : List Seg) :
    overlapTuple (segs.map rttmOfSeg) = qualifyingOverlaps segs := by
  induction segs with
  | nil => rfl
  | cons a rest ih =>
    cases rest with
    | nil => rfl
    | cons b rest2 =>
      have ha : a.start + (a.stop - a.start) = a.stop := by ring
      have hb : b.start + (b.stop - b.start) = b.stop := by ring
      have ih2 : overlapTuple (List.map rttmOfSeg (b :: rest2)) =
          qualifyingOverlaps (b :: rest2) := ih
      simp only [List.map_cons, overlapTuple, rttmOfSeg, ha, hb] at ih2 ⊢
      rw [ih2]
      simp only [qualifyingOverlaps, List.tail_cons, List.zip_cons_cons, List.filterMap_cons]
      by_cases h : max a.start b.start < min a.stop b.stop
      · simp [h]
      · simp [h]

theorem overlapsFrom_sum :
    ∀ (Q : List (ℚ × ℚ)) (lastEnd : ℚ),
      (overlapsFrom lastEnd Q).sum = totalOverlapSpec lastEnd Q := by
  intro Q
  induction Q with
  | nil => intro lastEnd; rfl
  | cons p tl ih =>
    intro lastEnd
    cases p with
    | mk s e => simp [overlapsFrom, totalOverlapSpec, ih]

theorem overlapsFrom_eq_nil_iff (lastEnd : ℚ) (Q : List (ℚ × ℚ)) :
    overlapsFrom lastEnd Q = [] ↔ Q = [] := by
  cases Q with
  | nil => simp [overlapsFrom]
  | cons p tl => cases p; simp [overlapsFrom]

theorem overlapTuple_lt :
    ∀ (info : List RttmRec) (p : ℚ × ℚ), p ∈ overlapTuple info → p.1 < p.2 := by
  intro info
  induction info with
  | nil => intro p hp; simp [overlapTuple] at hp
  | cons a rest ih =>
    cases rest with
    | nil => intro p hp; simp [overlapTuple] at hp
    | cons b rest2 =>
      intro p hp
      simp only [overlapTuple, List.mem_append] at hp
      rcases hp with hp | hp
      · by_cases h : max a.start b.start < min (a.start + a.duration) (b.start + b.duration)
        · simp only [h, if_pos, List.mem_singleton] at hp
          subst hp; exact h
        · simp [h] at hp
      · exact ih p hp

theorem overlapTuple_nonneg :
    ∀ (info : List RttmRec), (∀ r ∈ info, 0 ≤ r.start) →
      ∀ p ∈ overlapTuple info, 0 ≤ p.1 := by
  intro info
  induction info with
  | nil => intro _ p hp; simp [overlapTuple] at hp
  | cons a rest ih =>
    cases rest with
    | nil => intro _ p hp; simp [overlapTuple] at hp
    | cons b rest2 =>
      intro h0 p hp
      simp only [overlapTuple, List.mem_append] at hp
      rcases hp with hp | hp
      · by_cases h : max a.start b.start < min (a.start + a.duration) (b.start + b.duration)
        · simp only [h, if_pos, List.mem_singleton] at hp
          subst hp
          exact le_trans (h0 a (List.mem_cons_self _ _)) (le_max_left _ _)
        · simp [h] at hp
      · exact ih (fun r hr => h0 r (List.mem_cons_of_mem _ hr)) p hp

theorem finalLastEnd_mem :
    ∀ (Q : List (ℚ × ℚ)) (lastEnd : ℚ), Q ≠ [] →
      ∃ p ∈ Q, finalLastEnd lastEnd Q = p.2 := by
  intro Q
  induction Q with
  | nil => intro _ h; exact absurd rfl h
  | cons p tl ih =>
    intro lastEnd _
    cases tl with
    | nil => exact ⟨p, List.mem_cons_self _ _, rfl⟩
    | cons q tl2 =>
      rcases ih p.2 (by simp) with ⟨r, hr, he⟩
      refine ⟨r, List.mem_cons_of_mem _ hr, ?_⟩
      cases p with
      | mk s e => simpa [finalLastEnd] using he

theorem finalLastEnd_pos (Q : List (ℚ × ℚ)) (hne : Q ≠ [])
    (hlt : ∀ p ∈ Q, p.1 < p.2) (hnn : ∀ p ∈ Q, 0 ≤ p.1) (lastEnd : ℚ) :
    0 < finalLastEnd lastEnd Q := by
  rcases finalLastEnd_mem Q lastEnd hne with ⟨p, hp, he⟩
  rw [he]
  exact lt_of_le_of_lt (hnn p hp) (hlt p hp)

/-- C2: on every list of segments (segments have non-negative starts by the
data-model invariant), the overlap analyzer returns exactly the
claim-side accumulation (qualifying consecutive-pair intervals, last_end
attribution rule, relative = total / final last_end or 0 when none); in
particular the spec scenario `[(0,2,A), (1,3,B), (4,5,C)]` yields total 1
and relative 1/2. -/
theorem calculate_overlap_duration_matches_spec :
    (∀ (segs : List Seg), (∀ s ∈ segs, 0 ≤ s.start) →
        calculate_overlap_duration (segs.map rttmOfSeg) =
          .ok (totalOverlapSpec 0 (qualifyingOverlaps segs), relOverlapSpec segs)) ∧
      calculate_overlap_duration
          (([⟨0, 2, "A"⟩, ⟨1, 3, "B"⟩, ⟨4, 5, "C"⟩] : List Seg).map rttmOfSeg) =
        .ok (1, 1/2) := by
  constructor
  · intro segs h0
    have hQ := overlapTuple_map segs
    by_cases hq : qualifyingOverlaps segs = []
    · simp [calculate_overlap_duration, hQ, hq, overlapsFrom, relOverlapSpec,
        totalOverlapSpec]
    · have hnn : ∀ p ∈ qualifyingOverlaps segs, 0 ≤ p.1 := by
        intro p hp
        rw [← hQ] at hp
        refine overlapTuple_nonneg _ ?_ p hp
        intro r hr
        rcases List.mem_map.mp hr with ⟨s, hs, rfl⟩
        exact h0 s hs
      have hlt : ∀ p ∈ qualifyingOverlaps segs, p.1 < p.2 := by
        intro p hp
        rw [← hQ] at hp
        exact overlapTuple_lt _ p hp
      have hF : 0 < finalLastEnd 0 (qualifyingOverlaps segs) :=
        finalLastEnd_pos _ hq hlt hnn 0
      have hov : ¬ overlapsFrom 0 (qualifyingOverlaps segs) = [] := by
        rw [overlapsFrom_eq_nil_iff]; exact hq
      simp [calculate_overlap_duration, hQ, hov, hF.ne', overlapsFrom_sum, relOverlapSpec, hq]
  · norm_num [calculate_overlap_duration, rttmOfSeg, overlapTuple, overlapsFrom, finalLastEnd]

/-- Witness for C2 at the spec scenario input. -/
theorem calculate_overlap_duration_matches_spec_witness :
    calculate_overlap_duration
        (([⟨0, 2, "A"⟩, ⟨1, 3, "B"⟩, ⟨4, 5, "C"⟩] : List Seg).map rttmOfSeg) =
      .ok (totalOverlapSpec 0 (qualifyingOverlaps [⟨0, 2, "A"⟩, ⟨1, 3, "B"⟩, ⟨4, 5, "C"⟩]),
        relOverlapSpec [⟨0, 2, "A"⟩, ⟨1, 3, "B"⟩, ⟨4, 5, "C"⟩]) :=
  calculate_overlap_duration_matches_spec.1 _ (by norm_num)

theorem overlapTuple_fst_ge :
    ∀ (info : List RttmRec) (z : ℚ), (∀ x ∈ info, z ≤ x.start) →
      ∀ q ∈ overlapTuple info, z ≤ q.1 := by
  intro info
  induction info with
  | nil => intro z _ q hq; simp [overlapTuple] at hq
  | cons a rest ih =>
    cases rest with
    | nil => intro z _ q hq; simp [overlapTuple] at hq
    | cons b rest2 =>
      intro z hz q hq
      simp only [overlapTuple, List.mem_append] at hq
      rcases hq with hq | hq
      · by_cases h : max a.start b.start < min (a.start + a.duration) (b.start + b.duration)
        · simp only [h, if_pos, List.mem_singleton] at hq
          subst hq
          exact le_trans (hz a (List.mem_cons_self _ _)) (le_max_left _ _)
        · simp [h] at hq
      · exact ih z (fun x hx => hz x (List.mem_cons_of_mem _ hx)) q hq

theorem overlapTuple_pairwise :
    ∀ (info : List RttmRec), info.Pairwise (fun p q => p.start ≤ q.start) →
      (overlapTuple info).Pairwise (fun p q => p.1 ≤ q.1) := by
  intro info
  induction info with
  | nil => intro _; simp [overlapTuple]
  | cons a rest ih =>
    cases rest with
    | nil => intro _; simp [overlapTuple]
    | cons b rest2 =>
      intro hp
      have htail := (List.pairwise_cons.mp hp).2
      have hhead := (List.pairwise_cons.mp hp).1
      have hab : a.start ≤ b.start := hhead b (List.mem_cons_self _ _)
      simp only [overlapTuple]
      rw [List.pairwise_append]
      refine ⟨?_, ih htail, ?_⟩
      · by_cases h : max a.start b.start < min (a.start + a.duration) (b.start + b.duration) <;>
          simp [h]
      · intro x hx y hy
        by_cases h : max a.start b.start < min (a.start + a.duration) (b.start + b.duration)
        · simp only [h, if_pos, List.mem_singleton] at hx
          subst hx
          have : max a.start b.start = b.start := max_eq_right hab
          rw [this]
          refine overlapTuple_fst_ge (b :: rest2) b.start ?_ y hy
          intro x hx2
          rcases List.mem_cons.mp hx2 with rfl | hx2
          · exact le_rfl
          · exact (List.pairwise_cons.mp htail).1 x hx2
        · simp [h] at hx

theorem overlaps_sum_lower :
    ∀ (Q : List (ℚ × ℚ)) (lastEnd s₀ : ℚ),
      Q.Pairwise (fun p q => p.1 ≤ q.1) → (∀ p ∈ Q, p.1 < p.2) → (∀ p ∈ Q, s₀ ≤ p.1) →
      -(max 0 (lastEnd - s₀)) ≤ (overlapsFrom lastEnd Q).sum := by
  intro Q
  induction Q with
  | nil =>
    intro lastEnd s₀ _ _ _
    simp only [overlapsFrom, List.sum_nil]
    have : (0 : ℚ) ≤ max 0 (lastEnd - s₀) := le_max_left _ _
    linarith
  | cons p tl ih =>
    intro lastEnd s₀ hp hlt hs
    cases p with
    | mk s e =>
      have hse : s < e := by simpa using hlt (s, e) (List.mem_cons_self _ _)
      have hs0 : s₀ ≤ s := by simpa using hs (s, e) (List.mem_cons_self _ _)
      have htl_pair := (List.pairwise_cons.mp hp).2
      have htl_head : ∀ q ∈ tl, s ≤ q.1 := fun q hq => (List.pairwise_cons.mp hp).1 q hq
      have htl_lt : ∀ q ∈ tl, q.1 < q.2 := fun q hq => hlt q (List.mem_cons_of_mem _ hq)
      have ihe := ih e s htl_pair htl_lt htl_head
      have hmax_es : max 0 (e - s) = e - s := max_eq_right (by linarith)
      rw [hmax_es] at ihe
      by_cases h : s ≤ lastEnd
      · have hmax : max 0 (lastEnd - s₀) = lastEnd - s₀ := max_eq_right (by linarith)
        simp only [overlapsFrom, h, if_pos, List.sum_cons]
        rw [hmax]
        linarith
      · have hmax0 : (0 : ℚ) ≤ max 0 (lastEnd - s₀) := le_max_left _ _
        simp only [overlapsFrom, h, if_neg, not_false_iff, List.sum_cons]
        linarith

theorem overlaps_sum_upper :
    ∀ (Q : List (ℚ × ℚ)) (lastEnd : ℚ),
      (overlapsFrom lastEnd Q).sum ≤ finalLastEnd lastEnd Q - lastEnd := by
  intro Q
  induction Q with
  | nil => intro lastEnd; simp [overlapsFrom, finalLastEnd]
  | cons p tl ih =>
    intro lastEnd
    cases p with
    | mk s e =>
      have ihe := ih e
      by_cases h : s ≤ lastEnd
      · simp only [overlapsFrom, h, if_pos, List.sum_cons, finalLastEnd]
        linarith
      · simp only [overlapsFrom, h, if_neg, not_false_iff, List.sum_cons, finalLastEnd]
        push_neg at h
        linarith

/-- C6 (amended): for every input sequence that is ordered by start with
non-negative start times (the data-model invariant plus the temporal-order
precondition the module assumes), the total overlap duration is
non-negative, and whenever the final `last_end` is strictly positive the
relative overlap lies in `[0, 1]`.  (The original "no ordering
precondition" version is refuted by
`calculate_overlap_duration_counterexample`.) -/
theorem calculate_overlap_duration_nonneg (info : List RttmRec)
    (hsort : info.Pairwise (fun p q => p.start ≤ q.start))
    (h0 : ∀ r ∈ info, 0 ≤ r.start) :
    ∃ total rel, calculate_overlap_duration info = .ok (total, rel) ∧ 0 ≤ total ∧
      (0 < finalLastEnd 0 (overlapTuple info) → 0 ≤ rel ∧ rel ≤ 1) := by
  have hQpair := overlapTuple_pairwise info hsort
  have hQlt := overlapTuple_lt info
  have hQnn := overlapTuple_nonneg info h0
  have htotal : 0 ≤ (overlapsFrom 0 (overlapTuple info)).sum := by
    have h := overlaps_sum_lower (overlapTuple info) 0 0 hQpair hQlt hQnn
    simpa using h
  by_cases hq : overlapTuple info = []
  · refine ⟨0, 0, ?_, le_rfl, ?_⟩
    · simp [calculate_overlap_duration, hq, overlapsFrom]
    · intro hpos
      rw [hq] at hpos
      simp [finalLastEnd] at hpos
  · have hov : ¬ overlapsFrom 0 (overlapTuple info) = [] := by
      rw [overlapsFrom_eq_nil_iff]; exact hq
    have hF : 0 < finalLastEnd 0 (overlapTuple info) :=
      finalLastEnd_pos _ hq hQlt hQnn 0
    refine ⟨(overlapsFrom 0 (overlapTuple info)).sum,
      (overlapsFrom 0 (overlapTuple info)).sum / finalLastEnd 0 (overlapTuple info), ?_, htotal, ?_⟩
    · simp [calculate_overlap_duration, hov, hF.ne']
    · intro _
      constructor
      · exact div_nonneg htotal hF.le
      · rw [div_le_one hF]
        have h := overlaps_sum_upper (overlapTuple info) 0
        linarith

/-- Witness for C6 at a concrete ordered input with an overlap. -/
theorem calculate_overlap_duration_nonneg_witness :
    ∃ total rel,
      calculate_overlap_duration [⟨0, 2, "A"⟩, ⟨1, 2, "B"⟩] = .ok (total, rel) ∧ 0 ≤ total ∧
        (0 < finalLastEnd 0 (overlapTuple [⟨0, 2, "A"⟩, ⟨1, 2, "B"⟩]) → 0 ≤ rel ∧ rel ≤ 1) :=
  calculate_overlap_duration_nonneg _ (by norm_num [List.pairwise_cons]) (by norm_num)

/-- Counterexample to C6 as stated: without the ordering precondition the
total overlap can be negative, and the relative overlap can leave [0,1]
while the final last_end is positive: records
`[(start 5, dur 5), (start 0, dur 10), (start 0, dur 1)]` give qualifying
intervals (5,10) then (0,1); the attribution rule charges 5 and then
1 - 10 = -9, so total = -4 and relative = -4 with last_end = 1 > 0. -/
theorem calculate_overlap_duration_counterexample :
    calculate_overlap_duration [⟨5, 5, "A"⟩, ⟨0, 10, "B"⟩, ⟨0, 1, "C"⟩] = .ok (-4, -4) ∧
      finalLastEnd 0 (overlapTuple [⟨5, 5, "A"⟩, ⟨0, 10, "B"⟩, ⟨0, 1, "C"⟩]) = 1 ∧
      ¬ (0 ≤ (-4 : ℚ)) := by
  refine ⟨?_, ?_, by norm_num⟩
  · norm_num [calculate_overlap_duration, overlapTuple, overlapsFrom, finalLastEnd]
    simp
  · norm_num [overlapTuple, finalLastEnd]

/-- Tokenizer underlying Python str.split() with no separator: runs of
whitespace separate tokens, and leading/trailing whitespace yields no
empty tokens (so `line.strip().split()` ≡ `line.split()`).  `cur` is the
reversed current token. -/
def wordsAux (cur : List Char) : List Char → List (List Char)
  | [] => if cur.isEmpty then [] else [cur.reverse]
  | c :: rest =>
    if c.isWhitespace then
      if cur.isEmpty then wordsAux [] rest
      else cur.reverse :: wordsAux [] rest
    else wordsAux (c :: cur) rest

/-- Python `s.split()` (no-argument form). -/
def pySplit (s : String) : List String :=
  (wordsAux [] s.toList).map (fun l => String.mk l)

/-- calculate_filler_word_amount (evaluation.py lines 184-199).  The spacy
part-of-speech tagger is an external black box; its per-token tag list on
the file's text is the `posTags` argument.  The word count is
`len(lines.split())`; Python divides by it unconditionally, raising
ZeroDivisionError when the text has no words, embedded as the error
value. -/
def calculate_filler_word_amount (text : String) (posTags : List String) :
    Except EvalError (ℕ × ℚ) :=
  let intj_amount := (posTags.filter (fun t => t == "INTJ")).length
  let number_of_words := (pySplit text).length
  if number_of_words = 0 then .error .zeroDivision
  else .ok (intj_amount, (intj_amount : ℚ) / number_of_words)

/-- C5 (amended): the relative-overlap computation guards the
no-overlap-found case and returns the defined value 0.0, but the
relative-filler-word computation does not guard zero-length text: it
fails with a division-by-zero arithmetic fault there (see
`calculate_filler_word_amount_counterexample`), and only divides safely
when the text has at least one word. -/
theorem division_guard_status :
    (∀ (info : List RttmRec), overlapTuple info = [] →
        calculate_overlap_duration info = .ok (0, 0)) ∧
      (∀ (text : String) (tags : List String), pySplit text = [] →
        calculate_filler_word_amount text tags = .error .zeroDivision) ∧
      (∀ (text : String) (tags : List String), pySplit text ≠ [] →
        calculate_filler_word_amount text tags =
          .ok ((tags.filter (fun t => t == "INTJ")).length,
            ((tags.filter (fun t => t == "INTJ")).length : ℚ) / (pySplit text).length)) := by
  refine ⟨?_, ?_, ?_⟩
  · intro info hq
    simp [calculate_overlap_duration, hq, overlapsFrom]
  · intro text tags hsplit
    simp [calculate_filler_word_amount, hsplit]
  · intro text tags hsplit
    have hlen : (pySplit text).length ≠ 0 := by
      simpa [List.length_eq_zero] using hsplit
    simp [calculate_filler_word_amount, hlen]

/-- Witness for C5: a one-record file has no consecutive-pair overlap and
the analyzer returns (0, 0). -/
theorem division_guard_status_witness :
    calculate_overlap_duration [⟨0, 1, "A"⟩] = .ok (0, 0) :=
  division_guard_status.1 _ rfl

/-- Counterexample to C5 as stated: on zero-length text the filler-word
computation divides by `len("".split()) = 0` and raises, instead of
returning the defined value 0.0. -/
theorem calculate_filler_word_amount_counterexample :
    calculate_filler_word_amount "" [] = .error .zeroDivision := by
  simp [calculate_filler_word_amount, pySplit, wordsAux]

/-- The ASCII digit character for `d < 10`. -/
def digitChar48 (d : ℕ) : Char :=
  Char.ofNat (48 + d)

/-- Fuel-driven most-significant-first decimal digit writer (`acc` collects
the digits already produced; the fuel `n + 1` always suffices). -/
def natToDigitsAux : ℕ → ℕ → List Char → List Char
  | 0, _, acc => acc
  | fuel + 1, n, acc =>
    if n < 10 then digitChar48 n :: acc
    else natToDigitsAux fuel (n / 10) (digitChar48 (n % 10) :: acc)

/-- Decimal digits of a natural number, most significant first. -/
def natToDigits (n : ℕ) : List Char :=
  natToDigitsAux (n + 1) n []

/-- Python's fixed-two-decimal float formatting `f"{x:.2f}"` on the rational
embedding: round x*100 to the nearest integer (Python rounds the exact
binary float with ties-to-even; on rationals we use the standard `round`),
then print sign, integer digits, '.', and exactly two fraction digits. -/
def fmt2 (q : ℚ) : String :=
  let n : ℤ := round (q * 100)
  let m : ℕ := n.natAbs
  String.mk ((if n < 0 then ['-'] else []) ++
    natToDigits (m / 100) ++ '.' :: [digitChar48 (m % 100 / 10), digitChar48 (m % 100 % 10)])

/-- Value of a most-significant-first decimal digit string. -/
def natOfDigits (l : List Char) : ℕ :=
  l.foldl (fun a c => 10 * a + (c.toNat - 48)) 0

/-- Python `float(s)` on plain decimal literals (optional sign, digits,
optional fraction part); the RTTM/CSV fields handled by this repository
contain only such literals (no exponents, infinities or NaNs). -/
def parseUnsigned (cs : List Char) : Option ℚ :=
  let ip := cs.takeWhile (fun c => c != '.')
  let rest := cs.dropWhile (fun c => c != '.')
  match rest with
  | [] => if ip ≠ [] ∧ ip.all Char.isDigit then some (natOfDigits ip) else none
  | _ :: fp =>
    if (ip ≠ [] ∨ fp ≠ []) ∧ ip.all Char.isDigit ∧ fp.all Char.isDigit then
      some ((natOfDigits ip : ℚ) + (natOfDigits fp : ℚ) / 10 ^ fp.length)
    else none

/-- Python `float(s)` (decimal subset, see `parseUnsigned`). -/
def parseFloat (s : String) : Option ℚ :=
  match s.toList with
  | [] => none
  | c :: t =>
    if c = '-' then (parseUnsigned t).map (fun q => -q)
    else if c = '+' then parseUnsigned t
    else parseUnsigned (c :: t)

/-- list_to_rttm_string (forced_alignment.py lines 123-132). -/
def list_to_rttm_string (file_id : String) (l : Seg) : String :=
  "SPEAKER " ++ file_id ++ " 1 " ++ fmt2 l.start ++ " " ++ fmt2 (l.stop - l.start) ++
    " <NA> <NA> " ++ l.label ++ " <NA> <NA>"

/-- A record line that does not match the expected field count or types
(Python IndexError on parts[3]/parts[4]/parts[7] or ValueError from
float(); the spec names the condition MalformedRecordError). -/
inductive RttmError where
  | malformedRecord
deriving DecidableEq, Repr

/-- One line of parse_rttm_file (evaluation.py lines 121-126):
`parts = line.strip().split()`, start = float(parts[3]),
duration = float(parts[4]), speaker = parts[7]. -/
def parseRttmLine (line : String) : Except RttmError RttmRec :=
  let parts := pySplit line
  if parts.length < 8 then .error .malformedRecord
  else
    match parseFloat (parts.getD 3 ""), parseFloat (parts.getD 4 "") with
    | some st, some du => .ok ⟨st, du, parts.getD 7 ""⟩
    | _, _ => .error .malformedRecord

/-- parse_rttm_file (evaluation.py lines 110-128) on the file's lines:
sequential, aborting at the first malformed line. -/
def parse_rttm_file : List String → Except RttmError (List RttmRec)
  | [] => .ok []
  | line :: rest =>
    match parseRttmLine line with
    | .error e => .error e
    | .ok r =>
      match parse_rttm_file rest with
      | .error e => .error e
      | .ok rs => .ok (r :: rs)

theorem digitChar48_toNat (d : ℕ) (h : d < 10) : (digitChar48 d).toNat = 48 + d := by
  interval_cases d <;> rfl

theorem digitChar48_isDigit (d : ℕ) (h : d < 10) : (digitChar48 d).isDigit = true := by
  interval_cases d <;> decide

theorem digitChar48_not_ws (d : ℕ) (h : d < 10) : (digitChar48 d).isWhitespace = false := by
  interval_cases d <;> decide

theorem digitChar48_ne_dot (d : ℕ) (h : d < 10) : (digitChar48 d != '.') = true := by
  interval_cases d <;> decide

theorem digitChar48_ne_minus (d : ℕ) (h : d < 10) : ¬ digitChar48 d = '-' := by
  interval_cases d <;> decide

theorem digitChar48_ne_plus (d : ℕ) (h : d < 10) : ¬ digitChar48 d = '+' := by
  interval_cases d <;> decide

theorem natToDigitsAux_append :
    ∀ (fuel n : ℕ) (acc : List Char),
      natToDigitsAux fuel n acc = natToDigitsAux fuel n [] ++ acc := by
  intro fuel
  induction fuel with
  | zero => intro n acc; simp [natToDigitsAux]
  | succ f ih =>
    intro n acc
    by_cases h : n < 10
    · simp [natToDigitsAux, h]
    · simp only [natToDigitsAux, h, if_neg, not_false_iff]
      rw [ih (n / 10) (digitChar48 (n % 10) :: acc), ih (n / 10) [digitChar48 (n % 10)]]
      simp

theorem natToDigitsAux_mem :
    ∀ (fuel n : ℕ) (c : Char), c ∈ natToDigitsAux fuel n [] → ∃ d, d < 10 ∧ c = digitChar48 d := by
  intro fuel
  induction fuel with
  | zero => intro n c hc; simp [natToDigitsAux] at hc
  | succ f ih =>
    intro n c hc
    by_cases h : n < 10
    · simp only [natToDigitsAux, h, if_pos, List.mem_singleton] at hc
      exact ⟨n, h, hc⟩
    · simp only [natToDigitsAux, h, if_neg, not_false_iff] at hc
      rw [natToDigitsAux_append] at hc
      rcases List.mem_append.mp hc with hc | hc
      · exact ih _ _ hc
      · simp only [List.mem_singleton] at hc
        exact ⟨n % 10, Nat.mod_lt _ (by norm_num), hc⟩

theorem natToDigits_mem (n : ℕ) (c : Char) (hc : c ∈ natToDigits n) :
    ∃ d, d < 10 ∧ c = digitChar48 d :=
  natToDigitsAux_mem (n + 1) n c hc

theorem natToDigits_ne_nil (n : ℕ) : natToDigits n ≠ [] := by
  unfold natToDigits natToDigitsAux
  by_cases h : n < 10
  · simp [h]
  · simp only [h, if_neg, not_false_iff]
    rw [natToDigitsAux_append]
    simp

theorem natOfDigits_append_singleton (xs : List Char) (c : Char) :
    natOfDigits (xs ++ [c]) = 10 * natOfDigits xs + (c.toNat - 48) := by
  simp [natOfDigits, List.foldl_append]

theorem natOfDigits_natToDigitsAux :
    ∀ (fuel n : ℕ), n < fuel → natOfDigits (natToDigitsAux fuel n []) = n := by
  intro fuel
  induction fuel with
  | zero => intro n h; omega
  | succ f ih =>
    intro n hn
    by_cases h : n < 10
    · simp only [natToDigitsAux, h, if_pos]
      simp [natOfDigits, digitChar48_toNat n h]
    · simp only [natToDigitsAux, h, if_neg, not_false_iff]
      rw [natToDigitsAux_append, natOfDigits_append_singleton]
      have hq : n / 10 < f := by omega
      rw [ih (n / 10) hq, digitChar48_toNat (n % 10) (Nat.mod_lt _ (by norm_num))]
      omega

theorem natOfDigits_natToDigits (n : ℕ) : natOfDigits (natToDigits n) = n :=
  natOfDigits_natToDigitsAux (n + 1) n (Nat.lt_succ_self n)

theorem natToDigits_all_digit (n : ℕ) : (natToDigits n).all Char.isDigit = true := by
  rw [List.all_eq_true]
  intro c hc
  rcases natToDigits_mem n c hc with ⟨d, hd, rfl⟩
  exact digitChar48_isDigit d hd

theorem toList_mk (l : List Char) : (String.mk l).toList = l := rfl

theorem isDigit_bne_dot (c : Char) (h : c.isDigit = true) : (c != '.') = true := by
  rw [bne_iff_ne]
  intro heq
  subst heq
  exact absurd h (by decide)

theorem takeWhile_append_stop (p : Char → Bool) :
    ∀ (xs : List Char) (y : Char) (ys : List Char), (∀ c ∈ xs, p c = true) → p y = false →
      (xs ++ y :: ys).takeWhile p = xs ∧ (xs ++ y :: ys).dropWhile p = y :: ys := by
  intro xs
  induction xs with
  | nil =>
    intro y ys _ hy
    simp [List.takeWhile_cons, List.dropWhile_cons, hy]
  | cons x xs ih =>
    intro y ys hx hy
    have hpx : p x = true := hx x (List.mem_cons_self _ _)
    have := ih y ys (fun c hc => hx c (List.mem_cons_of_mem _ hc)) hy
    simp [List.takeWhile_cons, List.dropWhile_cons, hpx, this.1, this.2]

theorem parseUnsigned_shape (dgs : List Char) (c1 c2 : Char) (hne : dgs ≠ [])
    (hd : dgs.all Char.isDigit = true)
    (h1 : c1.isDigit = true) (h2 : c2.isDigit = true) :
    parseUnsigned (dgs ++ '.' :: [c1, c2]) =
      some ((natOfDigits dgs : ℚ) + (natOfDigits [c1, c2] : ℚ) / 100) := by
  have hall : ∀ c ∈ dgs, (c != '.') = true := by
    intro c hc
    exact isDigit_bne_dot c (List.all_eq_true.mp hd c hc)
  have hdot : ('.' != '.') = false := by decide
  have ht := takeWhile_append_stop (fun c => c != '.') dgs '.' [c1, c2] hall hdot
  simp only [parseUnsigned, ht.1, ht.2]
  simp [hne, hd, h1, h2]
  norm_num

theorem parseUnsigned_of_fmt_body (m : ℕ) :
    parseUnsigned (natToDigits (m / 100) ++
        '.' :: [digitChar48 (m % 100 / 10), digitChar48 (m % 100 % 10)]) =
      some ((m : ℚ) / 100) := by
  have ha : m % 100 / 10 < 10 := by omega
  have hb : m % 100 % 10 < 10 := by omega
  rw [parseUnsigned_shape (natToDigits (m / 100)) _ _ (natToDigits_ne_nil _)
    (natToDigits_all_digit _) (digitChar48_isDigit _ ha) (digitChar48_isDigit _ hb)]
  congr 1
  rw [natOfDigits_natToDigits]
  have hcd : natOfDigits [digitChar48 (m % 100 / 10), digitChar48 (m % 100 % 10)] = m % 100 := by
    simp [natOfDigits, digitChar48_toNat _ ha, digitChar48_toNat _ hb]
    omega
  rw [hcd]
  field_simp
  exact_mod_cast (by omega : m / 100 * 100 + m % 100 = m)

theorem parseFloat_fmt2 (q : ℚ) :
    parseFloat (fmt2 q) = some (((round (q * 100) : ℤ) : ℚ) / 100) := by
  by_cases hn : round (q * 100) < 0
  · have hlist : (fmt2 q).toList = '-' :: (natToDigits ((round (q * 100)).natAbs / 100) ++
        '.' :: [digitChar48 ((round (q * 100)).natAbs % 100 / 10),
          digitChar48 ((round (q * 100)).natAbs % 100 % 10)]) := by
      simp [fmt2, hn, toList_mk]
    rw [parseFloat, hlist]
    simp only [if_pos rfl, parseUnsigned_of_fmt_body, Option.map_some']
    rw [Int.cast_natAbs]
    push_cast
    rw [abs_of_neg (by exact_mod_cast hn : ((round (q * 100) : ℤ) : ℚ) < 0)]
    ring_nf
  · have hlist : (fmt2 q).toList = natToDigits ((round (q * 100)).natAbs / 100) ++
        '.' :: [digitChar48 ((round (q * 100)).natAbs % 100 / 10),
          digitChar48 ((round (q * 100)).natAbs % 100 % 10)] := by
      simp [fmt2, hn, toList_mk]
    rcases List.exists_cons_of_ne_nil (natToDigits_ne_nil ((round (q * 100)).natAbs / 100))
      with ⟨d0, dgs2, hdgs⟩
    have hd0 : d0.isDigit = true := by
      have hmem : d0 ∈ natToDigits ((round (q * 100)).natAbs / 100) := by
        rw [hdgs]; exact List.mem_cons_self _ _
      rcases natToDigits_mem _ _ hmem with ⟨d, hd, rfl⟩
      exact digitChar48_isDigit d hd
    have hne_minus : ¬ d0 = '-' := by
      intro heq; subst heq; exact absurd hd0 (by decide)
    have hne_plus : ¬ d0 = '+' := by
      intro heq; subst heq; exact absurd hd0 (by decide)
    rw [parseFloat, hlist, hdgs]
    simp only [List.cons_append, if_neg hne_minus, if_neg hne_plus]
    rw [← List.cons_append, ← hdgs, parseUnsigned_of_fmt_body]
    congr 1
    rw [Int.cast_natAbs]
    push_cast
    rw [abs_of_nonneg (by exact_mod_cast not_lt.mp hn : (0 : ℚ) ≤ ((round (q * 100) : ℤ) : ℚ))]

theorem toList_append (a b : String) : (a ++ b).toList = a.toList ++ b.toList := by
  simp [String.toList, String.data_append]

theorem mk_toList (s : String) : String.mk s.toList = s := rfl

theorem wordsAux_nonws :
    ∀ (w cur rest : List Char), (∀ c ∈ w, c.isWhitespace = false) →
      wordsAux cur (w ++ rest) = wordsAux (w.reverse ++ cur) rest := by
  intro w
  induction w with
  | nil => intro cur rest _; simp
  | cons c w2 ih =>
    intro cur rest hnws
    have hc : c.isWhitespace = false := hnws c (List.mem_cons_self _ _)
    simp only [List.cons_append, wordsAux, hc]
    rw [if_neg (by simp : ¬ (false = true))]
    simp only [List.append_eq]
    rw [ih (c :: cur) rest (fun x hx => hnws x (List.mem_cons_of_mem _ hx))]
    simp [List.append_assoc]

theorem wordsAux_space (cur rest : List Char) :
    wordsAux cur (' ' :: rest) =
      if cur.isEmpty then wordsAux [] rest else cur.reverse :: wordsAux [] rest := by
  rw [wordsAux, if_pos (by decide : (' ').isWhitespace = true)]

theorem wordsAux_token_cons (w rest : List Char) (hw : w ≠ [])
    (hnws : ∀ c ∈ w, c.isWhitespace = false) :
    wordsAux [] (w ++ ' ' :: rest) = w :: wordsAux [] rest := by
  rw [wordsAux_nonws w [] (' ' :: rest) hnws, List.append_nil, wordsAux_space]
  have hne : w.reverse.isEmpty = false := by
    cases w with
    | nil => exact absurd rfl hw
    | cons c w2 => simp
  rw [if_neg (by simp [hne])]
  simp

theorem wordsAux_token_last (w : List Char) (hw : w ≠ [])
    (hnws : ∀ c ∈ w, c.isWhitespace = false) :
    wordsAux [] w = [w] := by
  have h := wordsAux_nonws w [] [] hnws
  rw [List.append_nil] at h
  rw [h, wordsAux]
  have hne : w.reverse.isEmpty = false := by
    cases w with
    | nil => exact absurd rfl hw
    | cons c w2 => simp
  rw [if_neg (by simp [hne])]
  simp

theorem pySplit_ten_tokens (fid f1 f2 lab : String)
    (hfid_ne : fid.toList ≠ []) (hfid_ws : ∀ c ∈ fid.toList, c.isWhitespace = false)
    (hf1_ne : f1.toList ≠ []) (hf1_ws : ∀ c ∈ f1.toList, c.isWhitespace = false)
    (hf2_ne : f2.toList ≠ []) (hf2_ws : ∀ c ∈ f2.toList, c.isWhitespace = false)
    (hlab_ne : lab.toList ≠ []) (hlab_ws : ∀ c ∈ lab.toList, c.isWhitespace = false) :
    pySplit ("SPEAKER " ++ fid ++ " 1 " ++ f1 ++ " " ++ f2 ++ " <NA> <NA> " ++ lab ++
        " <NA> <NA>") =
      ["SPEAKER", fid, "1", f1, f2, "<NA>", "<NA>", lab, "<NA>", "<NA>"] := by
  have hL : ("SPEAKER " ++ fid ++ " 1 " ++ f1 ++ " " ++ f2 ++ " <NA> <NA> " ++ lab ++
      " <NA> <NA>").toList =
      "SPEAKER".toList ++ ' ' :: (fid.toList ++ ' ' :: ("1".toList ++ ' ' :: (f1.toList ++
        ' ' :: (f2.toList ++ ' ' :: ("<NA>".toList ++ ' ' :: ("<NA>".toList ++ ' ' ::
          (lab.toList ++ ' ' :: ("<NA>".toList ++ ' ' :: "<NA>".toList)))))))) := by
    simp only [toList_append]
    have h1 : "SPEAKER ".toList = "SPEAKER".toList ++ [' '] := by decide
    have h2 : " 1 ".toList = ' ' :: ("1".toList ++ [' ']) := by decide
    have h3 : " ".toList = [' '] := by decide
    have h4 : " <NA> <NA> ".toList =
        ' ' :: ("<NA>".toList ++ ' ' :: ("<NA>".toList ++ [' '])) := by decide
    have h5 : " <NA> <NA>".toList = ' ' :: ("<NA>".toList ++ ' ' :: "<NA>".toList) := by decide
    rw [h1, h2, h3, h4, h5]
    simp [List.append_assoc]
  unfold pySplit
  rw [hL]
  rw [wordsAux_token_cons "SPEAKER".toList _ (by decide) (by decide)]
  rw [wordsAux_token_cons fid.toList _ hfid_ne hfid_ws]
  rw [wordsAux_token_cons "1".toList _ (by decide) (by decide)]
  rw [wordsAux_token_cons f1.toList _ hf1_ne hf1_ws]
  rw [wordsAux_token_cons f2.toList _ hf2_ne hf2_ws]
  rw [wordsAux_token_cons "<NA>".toList _ (by decide) (by decide)]
  rw [wordsAux_token_cons "<NA>".toList _ (by decide) (by decide)]
  rw [wordsAux_token_cons lab.toList _ hlab_ne hlab_ws]
  rw [wordsAux_token_cons "<NA>".toList _ (by decide) (by decide)]
  rw [wordsAux_token_last "<NA>".toList (by decide) (by decide)]
  simp [mk_toList]

theorem fmt2_toList_ne_nil (q : ℚ) : (fmt2 q).toList ≠ [] := by
  by_cases h : round (q * 100) < 0 <;>
    simp [fmt2, toList_mk, h]

theorem fmt2_not_ws (q : ℚ) : ∀ c ∈ (fmt2 q).toList, c.isWhitespace = false := by
  intro c hc
  simp only [fmt2, toList_mk, List.append_assoc, List.mem_append, List.mem_cons,
    List.mem_singleton] at hc
  rcases hc with hc | hc | hc
  · by_cases h : round (q * 100) < 0
    · rw [if_pos h] at hc
      simp only [List.mem_singleton] at hc
      subst hc; decide
    · rw [if_neg h] at hc
      simp at hc
  · rcases natToDigits_mem _ _ hc with ⟨d, hd, rfl⟩
    exact digitChar48_not_ws d hd
  · rcases hc with rfl | hc
    · decide
    · rcases hc with rfl | rfl | h
      · exact digitChar48_not_ws _ (by omega)
      · exact digitChar48_not_ws _ (by omega)
      · simp at h

theorem fmt2_congr (x y : ℚ) (h : round (x * 100) = round (y * 100)) : fmt2 x = fmt2 y := by
  unfold fmt2
  rw [h]

theorem round_rat_div_hundred (k : ℤ) : round ((((k : ℤ) : ℚ) / 100) * 100) = k := by
  rw [div_mul_cancel₀ _ (by norm_num : (100 : ℚ) ≠ 0), round_intCast]

/-- C7 (amended): for every segment whose label is non-empty and free of
whitespace, and every non-empty whitespace-free file id, parsing the
serialized RTTM line (fields 3, 4, 7 as start, duration, label) and
serializing the parsed record again (with end = start + duration)
reproduces the identical line.  (Labels containing whitespace shift the
whitespace-delimited fields and break the round trip, see
`rttm_round_trip_counterexample`.) -/
theorem rttm_round_trip (fid : String) (r : Seg)
    (hfid_ne : fid.toList ≠ []) (hfid_ws : ∀ c ∈ fid.toList, c.isWhitespace = false)
    (hlab_ne : r.label.toList ≠ []) (hlab_ws : ∀ c ∈ r.label.toList, c.isWhitespace = false) :
    ∃ rec : RttmRec, parseRttmLine (list_to_rttm_string fid r) = .ok rec ∧
      list_to_rttm_string fid ⟨rec.start, rec.start + rec.duration, rec.label⟩ =
        list_to_rttm_string fid r := by
  have hsplit := pySplit_ten_tokens fid (fmt2 r.start) (fmt2 (r.stop - r.start)) r.label
    hfid_ne hfid_ws (fmt2_toList_ne_nil _) (fmt2_not_ws _)
    (fmt2_toList_ne_nil _) (fmt2_not_ws _) hlab_ne hlab_ws
  refine ⟨⟨((round (r.start * 100) : ℤ) : ℚ) / 100,
    ((round ((r.stop - r.start) * 100) : ℤ) : ℚ) / 100, r.label⟩, ?_, ?_⟩
  · simp only [parseRttmLine, list_to_rttm_string, hsplit]
    norm_num [parseFloat_fmt2]
  · simp only [list_to_rttm_string]
    have h1 : ((round (r.start * 100) : ℤ) : ℚ) / 100 +
        ((round ((r.stop - r.start) * 100) : ℤ) : ℚ) / 100 -
        ((round (r.start * 100) : ℤ) : ℚ) / 100 =
        ((round ((r.stop - r.start) * 100) : ℤ) : ℚ) / 100 := by ring
    rw [h1, fmt2_congr _ r.start (round_rat_div_hundred _),
      fmt2_congr _ (r.stop - r.start) (round_rat_div_hundred _)]

/-- Witness for C7 at a concrete record. -/
theorem rttm_round_trip_witness :
    ∃ rec : RttmRec, parseRttmLine (list_to_rttm_string "file" ⟨0, 1, "A"⟩) = .ok rec ∧
      list_to_rttm_string "file" ⟨rec.start, rec.start + rec.duration, rec.label⟩ =
        list_to_rttm_string "file" ⟨0, 1, "A"⟩ :=
  rttm_round_trip "file" ⟨0, 1, "A"⟩ (by decide) (by decide) (by decide) (by decide)

theorem fmt2_zero : fmt2 0 = "0.00" := by
  unfold fmt2
  rw [show round ((0 : ℚ) * 100) = 0 by norm_num]
  decide

theorem fmt2_one : fmt2 1 = "1.00" := by
  unfold fmt2
  rw [show ((1 : ℚ) * 100) = ((100 : ℤ) : ℚ) by norm_num, round_intCast]
  decide

theorem parseFloat_00 : parseFloat "0.00" = some 0 := by
  have h := parseFloat_fmt2 0
  rw [fmt2_zero] at h
  rw [h]
  norm_num

theorem parseFloat_100 : parseFloat "1.00" = some 1 := by
  have h := parseFloat_fmt2 1
  rw [fmt2_one] at h
  rw [h]
  rw [show ((1 : ℚ) * 100) = ((100 : ℤ) : ℚ) by norm_num, round_intCast]
  norm_num

/-- Counterexample to C7 as stated: a record whose label contains a space.
Serializing `(0, 1, "a b")` and parsing the line back reads field 7 as
just "a", so re-serializing produces a different line. -/
theorem rttm_round_trip_counterexample :
    parseRttmLine (list_to_rttm_string "f" ⟨0, 1, "a b"⟩) = .ok ⟨0, 1, "a"⟩ ∧
      list_to_rttm_string "f" ⟨0, 0 + 1, "a"⟩ ≠ list_to_rttm_string "f" ⟨0, 1, "a b"⟩ := by
  have hs : list_to_rttm_string "f" ⟨0, 1, "a b"⟩ =
      "SPEAKER f 1 0.00 1.00 <NA> <NA> a b <NA> <NA>" := by
    simp only [list_to_rttm_string]
    rw [show (1 : ℚ) - 0 = 1 by norm_num, fmt2_zero, fmt2_one]
    rfl
  have hs2 : list_to_rttm_string "f" ⟨0, 0 + 1, "a"⟩ =
      "SPEAKER f 1 0.00 1.00 <NA> <NA> a <NA> <NA>" := by
    simp only [list_to_rttm_string]
    rw [show (0 : ℚ) + 1 - 0 = 1 by norm_num, fmt2_zero, fmt2_one]
    rfl
  constructor
  · rw [hs]
    have hsp : pySplit "SPEAKER f 1 0.00 1.00 <NA> <NA> a b <NA> <NA>" =
        ["SPEAKER", "f", "1", "0.00", "1.00", "<NA>", "<NA>", "a", "b", "<NA>", "<NA>"] := by
      decide
    simp only [parseRttmLine, hsp]
    norm_num [parseFloat_00, parseFloat_100]
  · rw [hs, hs2]
    decide

/-- A well-formed RTTM line: at least 8 whitespace-separated fields and
numeric time fields at indices 3 and 4. -/
def goodLine (line : String) : Prop :=
  8 ≤ (pySplit line).length ∧
    (parseFloat ((pySplit line).getD 3 "")).isSome = true ∧
    (parseFloat ((pySplit line).getD 4 "")).isSome = true

/-- The record parsed from a well-formed line: start from field 3, duration
from field 4, label from field 7. -/
def lineRec (line : String) (r : RttmRec) : Prop :=
  8 ≤ (pySplit line).length ∧
    parseFloat ((pySplit line).getD 3 "") = some r.start ∧
    parseFloat ((pySplit line).getD 4 "") = some r.duration ∧
    (pySplit line).getD 7 "" = r.label

theorem parseRttmLine_ok_iff (line : String) (r : RttmRec) :
    parseRttmLine line = .ok r ↔ lineRec line r := by
  simp only [parseRttmLine, lineRec]
  by_cases h : (pySplit line).length < 8
  · simp [h, (show ¬ 8 ≤ (pySplit line).length by omega)]
  · simp only [h, if_neg, not_false_iff]
    cases h3 : parseFloat ((pySplit line).getD 3 "") with
    | none => simp [h3]
    | some st =>
      cases h4 : parseFloat ((pySplit line).getD 4 "") with
      | none => simp [h3, h4]
      | some du =>
        constructor
        · intro hok
          simp only [Except.ok.injEq] at hok
          subst hok
          exact ⟨by omega, by simp, by simp, rfl⟩
        · rintro ⟨_, hr3, hr4, hr7⟩
          simp only [Option.some.injEq] at hr3 hr4
          cases r with
          | mk rs rd rl =>
            simp only at hr3 hr4 hr7
            subst hr3; subst hr4; subst hr7
            rfl

theorem parseRttmLine_error_iff (line : String) :
    parseRttmLine line = .error .malformedRecord ↔ ¬ goodLine line := by
  simp only [parseRttmLine, goodLine]
  by_cases h : (pySplit line).length < 8
  · simp [h, (show ¬ 8 ≤ (pySplit line).length by omega)]
  · simp only [h, if_neg, not_false_iff]
    cases h3 : parseFloat ((pySplit line).getD 3 "") with
    | none => simp [h3, (show 8 ≤ (pySplit line).length by omega)]
    | some st =>
      cases h4 : parseFloat ((pySplit line).getD 4 "") with
      | none => simp [h3, h4, (show 8 ≤ (pySplit line).length by omega)]
      | some du => simp [h3, h4, (show 8 ≤ (pySplit line).length by omega)]

theorem parseRttmLine_ok_goodLine (line : String) (r : RttmRec)
    (h : parseRttmLine line = .ok r) : goodLine line := by
  rcases (parseRttmLine_ok_iff line r).mp h with ⟨h8, h3, h4, _⟩
  refine ⟨h8, ?_, ?_⟩
  · rw [h3]; rfl
  · rw [h4]; rfl

theorem parse_rttm_file_ok_iff :
    ∀ (lines : List String) (recs : List RttmRec),
      parse_rttm_file lines = .ok recs ↔ List.Forall₂ lineRec lines recs := by
  intro lines
  induction lines with
  | nil =>
    intro recs
    constructor
    · intro h
      simp only [parse_rttm_file, Except.ok.injEq] at h
      subst h
      exact List.Forall₂.nil
    · intro h
      cases h
      rfl
  | cons line rest ih =>
    intro recs
    constructor
    · intro h
      simp only [parse_rttm_file] at h
      cases hl : parseRttmLine line with
      | error e => rw [hl] at h; cases h
      | ok r =>
        rw [hl] at h
        cases hr : parse_rttm_file rest with
        | error e => rw [hr] at h; cases h
        | ok rs =>
          rw [hr] at h
          simp only [Except.ok.injEq] at h
          subst h
          exact List.Forall₂.cons ((parseRttmLine_ok_iff line r).mp hl) ((ih rs).mp hr)
    · intro h
      cases h with
      | cons hrel hrest =>
        rename_i r rs
        simp only [parse_rttm_file, (parseRttmLine_ok_iff line r).mpr hrel, (ih rs).mpr hrest]

theorem parse_rttm_file_error_iff :
    ∀ (lines : List String),
      parse_rttm_file lines = .error .malformedRecord ↔ ∃ line ∈ lines, ¬ goodLine line := by
  intro lines
  induction lines with
  | nil => simp [parse_rttm_file]
  | cons line rest ih =>
    cases hl : parseRttmLine line with
    | error e =>
      cases e
      constructor
      · intro _
        exact ⟨line, List.mem_cons_self _ _, (parseRttmLine_error_iff line).mp hl⟩
      · intro _
        simp [parse_rttm_file, hl]
    | ok r =>
      have hgood : goodLine line := parseRttmLine_ok_goodLine line r hl
      constructor
      · intro h
        simp only [parse_rttm_file, hl] at h
        cases hr : parse_rttm_file rest with
        | error e =>
          cases e
          rcases ih.mp hr with ⟨l2, hl2, hb⟩
          exact ⟨l2, List.mem_cons_of_mem _ hl2, hb⟩
        | ok rs => rw [hr] at h; cases h
      · rintro ⟨l2, hl2, hb⟩
        rcases List.mem_cons.mp hl2 with rfl | hl2
        · exact absurd hgood hb
        · have hr : parse_rttm_file rest = .error .malformedRecord :=
            ih.mpr ⟨l2, hl2, hb⟩
          simp [parse_rttm_file, hl, hr]

/-- C8: the RTTM parser fails with the malformed-record error exactly when
some line has fewer than 8 whitespace-separated fields or a non-numeric
time field at index 3 or 4; on well-formed input it returns one record per
line, whose start, duration and label are fields 3, 4 and 7 of that line
(the segment end being start + duration downstream). -/
theorem parse_rttm_file_spec (lines : List String) :
    (parse_rttm_file lines = .error .malformedRecord ↔ ∃ line ∈ lines, ¬ goodLine line) ∧
      ∀ recs, parse_rttm_file lines = .ok recs →
        recs.length = lines.length ∧ List.Forall₂ lineRec lines recs := by
  refine ⟨parse_rttm_file_error_iff lines, ?_⟩
  intro recs h
  have hf := (parse_rttm_file_ok_iff lines recs).mp h
  exact ⟨hf.length_eq.symm, hf⟩

/-- Witness for C8 at a concrete well-formed file. -/
theorem parse_rttm_file_spec_witness :
    [("SPEAKER f 1 0.00 1.00 <NA> <NA> A <NA> <NA>" : String)].length =
        [(⟨0, 1, "A"⟩ : RttmRec)].length ∧
      List.Forall₂ lineRec ["SPEAKER f 1 0.00 1.00 <NA> <NA> A <NA> <NA>"]
        [(⟨0, 1, "A"⟩ : RttmRec)] := by
  have hsp : pySplit "SPEAKER f 1 0.00 1.00 <NA> <NA> A <NA> <NA>" =
      ["SPEAKER", "f", "1", "0.00", "1.00", "<NA>", "<NA>", "A", "<NA>", "<NA>"] := by
    decide
  have hline : parseRttmLine "SPEAKER f 1 0.00 1.00 <NA> <NA> A <NA> <NA>" =
      .ok ⟨0, 1, "A"⟩ := by
    simp only [parseRttmLine, hsp]
    norm_num [parseFloat_00, parseFloat_100]
  have hok : parse_rttm_file ["SPEAKER f 1 0.00 1.00 <NA> <NA> A <NA> <NA>"] =
      .ok [⟨0, 1, "A"⟩] := by
    simp [parse_rttm_file, hline]
  have h := (parse_rttm_file_spec ["SPEAKER f 1 0.00 1.00 <NA> <NA> A <NA> <NA>"]).2
    [⟨0, 1, "A"⟩] hok
  exact ⟨h.1.symm, h.2⟩

/-- Python `s.split(sep)` for a non-empty separator, char level: scan left
to right, emit the accumulated chunk at each non-overlapping separator
occurrence, keep empty chunks.  Fuel-driven (length + 1 always suffices). -/
def splitOnChAux (sep : List Char) : ℕ → List Char → List Char → List (List Char)
  | 0, acc, _ => [acc.reverse]
  | _ + 1, acc, [] => [acc.reverse]
  | fuel + 1, acc, c :: rest =>
    if sep.isPrefixOf (c :: rest) then
      acc.reverse :: splitOnChAux sep fuel [] ((c :: rest).drop sep.length)
    else
      splitOnChAux sep fuel (c :: acc) rest

/-- Python `s.split(sep)` with an explicit non-empty separator string. -/
def pySplitOn (s sep : String) : List String :=
  (splitOnChAux sep.toList (s.toList.length + 1) [] s.toList).map (fun l => String.mk l)

/-- A speaker-assigned CSV row the converter cannot unpack into
`word, start, end, score, speaker` with numeric times (Python ValueError). -/
inductive ConvError where
  | malformedRow
deriving DecidableEq, Repr

/-- One data row of convert_csv_to_rttm (forced_alignment.py line 169-171):
`_, start_time, end_time, _, speaker = w.split(', ')` with float
conversions; word and score are dropped. -/
def parseCsvLine (w : String) : Except ConvError Seg :=
  match pySplitOn w ", " with
  | [_, st, en, _, spk] =>
    match parseFloat st, parseFloat en with
    | some s, some e => .ok ⟨s, e, spk⟩
    | _, _ => .error .malformedRow
  | _ => .error .malformedRow

/-- The row loop of convert_csv_to_rttm, aborting at the first bad row. -/
def parseCsvLines : List String → Except ConvError (List Seg)
  | [] => .ok []
  | w :: rest =>
    match parseCsvLine w with
    | .error e => .error e
    | .ok r =>
      match parseCsvLines rest with
      | .error e => .error e
      | .ok rs => .ok (r :: rs)

/-- Appending a row to the Python dict `result` keyed by speaker: extend the
first entry with the row's label, else add a new key at the end
(insertion-ordered, as Python dicts are). -/
def insertGrouped (r : Seg) : List (String × List Seg) → List (String × List Seg)
  | [] => [(r.label, [r])]
  | (k, v) :: t => if k = r.label then (k, v ++ [r]) :: t else (k, v) :: insertGrouped r t

/-- The grouping pass of convert_csv_to_rttm (lines 167-175). -/
def groupBySpeaker (rows : List Seg) : List (String × List Seg) :=
  rows.foldl (fun acc r => insertGrouped r acc) []

/-- merge_close_numbers at the default threshold 0.5 as invoked per speaker
group (line 177); groups are non-empty by construction, so the empty case
is unreachable there. -/
def mergeGroup : List Seg → List Seg
  | [] => []
  | a :: t => mergeAux a t (1/2)

/-- Stable insertion by start time: a record goes before the first existing
record whose start is not smaller, so records with equal starts keep
their relative order.  Any stable sort on the start key alone computes
the same list as Python's `sorted(result, key=lambda r: r[0])`. -/
def insertByStart (r : Seg) : List Seg → List Seg
  | [] => [r]
  | x :: t => if x.start < r.start then x :: insertByStart r t else r :: x :: t

/-- Stable sort by start time (line 179). -/
def sortByStart : List Seg → List Seg
  | [] => []
  | a :: t => insertByStart a (sortByStart t)

/-- `os.path.basename(path).split('.')[0]` (line 164). -/
def file_id_of_path (p : String) : String :=
  (pySplitOn ((pySplitOn p "/").getLastD "") ".").headD ""

/-- convert_csv_to_rttm (forced_alignment.py lines 153-183) on the file's
text: skip the header line, drop empty lines, parse rows, group by
speaker in first-appearance order, merge each group at threshold 0.5,
flatten, sort by start, serialize with the base name as file id and join
with newlines. -/
def convert_csv_to_rttm (input_csv_path content : String) : Except ConvError String :=
  let file_id := file_id_of_path input_csv_path
  let words := ((pySplitOn content "\n").drop 1).filter (fun w => w != "")
  match parseCsvLines words with
  | .error e => .error e
  | .ok rows =>
    let merged := (groupBySpeaker rows).map (fun g => mergeGroup g.2)
    let sorted := sortByStart merged.flatten
    .ok (String.intercalate "\n" (sorted.map (list_to_rttm_string file_id)))

theorem insertGrouped_not_mem (r : Seg) :
    ∀ (acc : List (String × List Seg)), r.label ∉ acc.map Prod.fst →
      insertGrouped r acc = acc ++ [(r.label, [r])] := by
  intro acc
  induction acc with
  | nil => intro _; rfl
  | cons g t ih =>
    intro hmem
    cases g with
    | mk k v =>
      have hk : ¬ k = r.label := by
        intro heq
        exact hmem (by simp [heq])
      simp only [insertGrouped, hk, if_neg, not_false_iff, List.cons_append]
      rw [ih (fun hm => hmem (by simp [hm]))]

theorem insertGrouped_keys_mem (r : Seg) :
    ∀ (acc : List (String × List Seg)), r.label ∈ acc.map Prod.fst →
      (insertGrouped r acc).map Prod.fst = acc.map Prod.fst := by
  intro acc
  induction acc with
  | nil => intro h; simp at h
  | cons g t ih =>
    intro hmem
    cases g with
    | mk k v =>
      by_cases hk : k = r.label
      · simp [insertGrouped, hk]
      · have hmem2 : r.label ∈ t.map Prod.fst := by
          rw [List.map_cons] at hmem
          rcases List.mem_cons.mp hmem with heq | h
          · exact absurd heq.symm hk
          · exact h
        simp [insertGrouped, hk, ih hmem2]

theorem insertGrouped_mem_char (r : Seg) :
    ∀ (acc : List (String × List Seg)), (acc.map Prod.fst).Nodup →
      r.label ∈ acc.map Prod.fst →
      ∀ g ∈ insertGrouped r acc,
        (∃ v, (r.label, v) ∈ acc ∧ g = (r.label, v ++ [r])) ∨ (g ∈ acc ∧ g.1 ≠ r.label) := by
  intro acc
  induction acc with
  | nil => intro _ h; simp at h
  | cons p t ih =>
    intro hnd hmem g hg
    cases p with
    | mk k v =>
      rw [List.map_cons] at hnd
      by_cases hk : k = r.label
      · subst hk
        have heq : insertGrouped r ((r.label, v) :: t) = (r.label, v ++ [r]) :: t := by
          simp [insertGrouped]
        rw [heq] at hg
        rcases List.mem_cons.mp hg with hg1 | hg2
        · exact Or.inl ⟨v, List.mem_cons_self _ _, hg1⟩
        · right
          refine ⟨List.mem_cons_of_mem _ hg2, ?_⟩
          intro hglab
          refine (List.nodup_cons.mp hnd).1 ?_
          rw [← hglab]
          exact List.mem_map.mpr ⟨g, hg2, rfl⟩
      · have hmem2 : r.label ∈ t.map Prod.fst := by
          rw [List.map_cons] at hmem
          rcases List.mem_cons.mp hmem with heq2 | h
          · exact absurd heq2.symm hk
          · exact h
        have heq : insertGrouped r ((k, v) :: t) = (k, v) :: insertGrouped r t := by
          simp [insertGrouped, hk]
        rw [heq] at hg
        rcases List.mem_cons.mp hg with hg1 | hg2
        · subst hg1
          exact Or.inr ⟨List.mem_cons_self _ _, hk⟩
        · rcases ih (List.nodup_cons.mp hnd).2 hmem2 g hg2 with
            ⟨w, hw, hgw⟩ | ⟨hga, hne⟩
          · exact Or.inl ⟨w, List.mem_cons_of_mem _ hw, hgw⟩
          · exact Or.inr ⟨List.mem_cons_of_mem _ hga, hne⟩

/-- Invariant of the grouping pass: keys are distinct, each group holds
exactly the processed rows with its label in order, and every processed
row's label has a key. -/
def GroupInv (P : List Seg) (acc : List (String × List Seg)) : Prop :=
  (acc.map Prod.fst).Nodup ∧
    (∀ g ∈ acc, g.2 = P.filter (fun x => x.label == g.1) ∧ g.2 ≠ []) ∧
    (∀ p ∈ P, p.label ∈ acc.map Prod.fst)

theorem insertGrouped_inv (P : List Seg) (acc : List (String × List Seg)) (r : Seg)
    (h : GroupInv P acc) : GroupInv (P ++ [r]) (insertGrouped r acc) := by
  obtain ⟨hnd, hval, hkeys⟩ := h
  by_cases hmem : r.label ∈ acc.map Prod.fst
  · refine ⟨?_, ?_, ?_⟩
    · rw [insertGrouped_keys_mem r acc hmem]; exact hnd
    · intro g hg
      rcases insertGrouped_mem_char r acc hnd hmem g hg with ⟨v, hv, rfl⟩ | ⟨hga, hne⟩
      · have hfv := (hval _ hv).1
        simp only at hfv
        constructor
        · rw [List.filter_append, ← hfv]
          simp
        · simp
      · constructor
        · have hbeq : (r.label == g.1) = false := by
            rw [beq_eq_false_iff_ne]
            exact fun heq => hne heq.symm
          rw [List.filter_append, (hval g hga).1]
          simp [hbeq]
        · exact (hval g hga).2
    · intro p hp
      rw [insertGrouped_keys_mem r acc hmem]
      rcases List.mem_append.mp hp with hp | hp
      · exact hkeys p hp
      · simp only [List.mem_singleton] at hp
        subst hp
        exact hmem
  · rw [insertGrouped_not_mem r acc hmem]
    refine ⟨?_, ?_, ?_⟩
    · rw [List.map_append]
      simp only [List.map_cons, List.map_nil]
      rw [List.nodup_append]
      exact ⟨hnd, List.nodup_singleton _, by simpa using hmem⟩
    · intro g hg
      rcases List.mem_append.mp hg with hg | hg
      · have hg1 : g.1 ∈ acc.map Prod.fst := List.mem_map_of_mem Prod.fst hg
        have hbeq : (r.label == g.1) = false := by
          rw [beq_eq_false_iff_ne]
          intro heq
          exact hmem (heq ▸ hg1)
        constructor
        · rw [List.filter_append, (hval g hg).1]
          simp [hbeq]
        · exact (hval g hg).2
      · simp only [List.mem_singleton] at hg
        subst hg
        constructor
        · have hP : P.filter (fun x => x.label == r.label) = [] := by
            rw [List.filter_eq_nil_iff]
            intro x hx hbx
            have : x.label = r.label := by simpa using hbx
            exact hmem (this ▸ hkeys x hx)
          rw [List.filter_append, hP]
          simp
        · simp
    · intro p hp
      rw [List.map_append]
      rcases List.mem_append.mp hp with hp | hp
      · exact List.mem_append_left _ (hkeys p hp)
      · simp only [List.mem_singleton] at hp
        subst hp
        simp

theorem groupBy_foldl_inv :
    ∀ (rows P : List Seg) (acc : List (String × List Seg)), GroupInv P acc →
      GroupInv (P ++ rows) (rows.foldl (fun a r => insertGrouped r a) acc) := by
  intro rows
  induction rows with
  | nil => intro P acc h; simpa using h
  | cons r rows2 ih =>
    intro P acc h
    have h2 := ih (P ++ [r]) (insertGrouped r acc) (insertGrouped_inv P acc r h)
    simpa [List.append_assoc] using h2

theorem groupBySpeaker_inv (rows : List Seg) : GroupInv rows (groupBySpeaker rows) := by
  have h := groupBy_foldl_inv rows [] []
    ⟨List.nodup_nil, by simp, by simp⟩
  simpa [groupBySpeaker] using h

theorem insertByStart_perm (r : Seg) :
    ∀ (l : List Seg), (insertByStart r l).Perm (r :: l) := by
  intro l
  induction l with
  | nil => exact List.Perm.refl _
  | cons x t ih =>
    by_cases h : x.start < r.start
    · simp only [insertByStart, h, if_pos]
      exact ((ih.cons x).trans (List.Perm.swap r x t))
    · simp [insertByStart, h]

theorem sortByStart_perm : ∀ (l : List Seg), (sortByStart l).Perm l := by
  intro l
  induction l with
  | nil => exact List.Perm.refl _
  | cons a t ih =>
    exact (insertByStart_perm a (sortByStart t)).trans (ih.cons a)

theorem insertByStart_sorted (r : Seg) :
    ∀ (l : List Seg), l.Pairwise (fun x y => x.start ≤ y.start) →
      (insertByStart r l).Pairwise (fun x y => x.start ≤ y.start) := by
  intro l
  induction l with
  | nil => intro _; simp [insertByStart]
  | cons x t ih =>
    intro hp
    rcases List.pairwise_cons.mp hp with ⟨hx, ht⟩
    by_cases h : x.start < r.start
    · simp only [insertByStart, h, if_pos]
      rw [List.pairwise_cons]
      refine ⟨?_, ih ht⟩
      intro y hy
      rcases List.mem_cons.mp ((insertByStart_perm r t).mem_iff.mp hy) with rfl | hyt
      · exact le_of_lt h
      · exact hx y hyt
    · simp only [insertByStart, h, if_neg, not_false_iff]
      rw [List.pairwise_cons]
      refine ⟨?_, hp⟩
      intro y hy
      rcases List.mem_cons.mp hy with rfl | hyt
      · exact le_of_not_lt h
      · exact le_trans (le_of_not_lt h) (hx y hyt)

theorem sortByStart_sorted :
    ∀ (l : List Seg), (sortByStart l).Pairwise (fun x y => x.start ≤ y.start) := by
  intro l
  induction l with
  | nil => simp [sortByStart]
  | cons a t ih => exact insertByStart_sorted a (sortByStart t) ih

theorem insertByStart_filter_eq (r : Seg) (q : ℚ) (h : r.start = q) :
    ∀ (l : List Seg),
      (insertByStart r l).filter (fun x => decide (x.start = q)) =
        r :: l.filter (fun x => decide (x.start = q)) := by
  intro l
  induction l with
  | nil => simp [insertByStart, List.filter_cons, h]
  | cons x t ih =>
    by_cases hx : x.start < r.start
    · have hxq : ¬ x.start = q := by rw [← h]; exact ne_of_lt hx
      simp only [insertByStart, hx, if_pos]
      rw [List.filter_cons, List.filter_cons, decide_eq_false hxq]
      simp only [Bool.false_eq_true, if_false]
      exact ih
    · simp only [insertByStart, hx, if_neg, not_false_iff]
      rw [List.filter_cons]
      simp [h]

theorem insertByStart_filter_ne (r : Seg) (q : ℚ) (h : ¬ r.start = q) :
    ∀ (l : List Seg),
      (insertByStart r l).filter (fun x => decide (x.start = q)) =
        l.filter (fun x => decide (x.start = q)) := by
  intro l
  induction l with
  | nil => simp [insertByStart, List.filter_cons, h]
  | cons x t ih =>
    by_cases hx : x.start < r.start
    · simp only [insertByStart, hx, if_pos]
      rw [List.filter_cons, List.filter_cons]
      by_cases hxq : x.start = q
      · simp only [decide_eq_true hxq, if_pos, ih]
      · simp only [decide_eq_false hxq, Bool.false_eq_true, if_false, ih]
    · simp only [insertByStart, hx, if_neg, not_false_iff]
      rw [List.filter_cons]
      simp [h]

theorem sortByStart_filter (q : ℚ) :
    ∀ (l : List Seg),
      (sortByStart l).filter (fun x => decide (x.start = q)) =
        l.filter (fun x => decide (x.start = q)) := by
  intro l
  induction l with
  | nil => rfl
  | cons a t ih =>
    by_cases ha : a.start = q
    · rw [sortByStart, insertByStart_filter_eq a q ha, ih, List.filter_cons]
      simp [ha]
    · rw [sortByStart, insertByStart_filter_ne a q ha, ih, List.filter_cons]
      simp [ha]

/-- The flattened, per-speaker-merged, start-sorted sequence the converter
serializes. -/
def convertedSegs (rows : List Seg) : List Seg :=
  sortByStart ((groupBySpeaker rows).map (fun g => mergeGroup g.2)).flatten

/-- C3: for every speaker-assigned alignment table (header skipped, empty
lines dropped) that parses into rows, the converter output is exactly the
rows grouped by speaker in first-appearance order (each group holding that
speaker's rows in table order), each group merged by the Segment Merger at
τ = 0.5, flattened, sorted by start with a stable sort (a permutation,
sorted, and tie-preserving: filtering any fixed start value returns the
pre-sort order), and serialized as RTTM lines with the source file's base
name (stripped of extension) as file id, joined by newlines. -/
theorem convert_csv_to_rttm_spec (path content : String) (rows : List Seg)
    (hok : parseCsvLines (((pySplitOn content "\n").drop 1).filter (fun w => w != "")) =
      .ok rows) :
    convert_csv_to_rttm path content =
        .ok (String.intercalate "\n"
          ((convertedSegs rows).map (list_to_rttm_string (file_id_of_path path)))) ∧
      (∀ g ∈ groupBySpeaker rows, g.2 = rows.filter (fun x => x.label == g.1) ∧ g.2 ≠ [] ∧
        merge_close_numbers g.2 (1/2) = .ok (mergeGroup g.2)) ∧
      (convertedSegs rows).Pairwise (fun x y => x.start ≤ y.start) ∧
      (convertedSegs rows).Perm
        ((groupBySpeaker rows).map (fun g => mergeGroup g.2)).flatten ∧
      (∀ q : ℚ, (convertedSegs rows).filter (fun x => decide (x.start = q)) =
        (((groupBySpeaker rows).map (fun g => mergeGroup g.2)).flatten).filter
          (fun x => decide (x.start = q))) := by
  obtain ⟨hnd, hval, hkeys⟩ := groupBySpeaker_inv rows
  refine ⟨?_, ?_, sortByStart_sorted _, sortByStart_perm _, fun q => sortByStart_filter q _⟩
  · rw [List.drop_one] at hok
    simp [convert_csv_to_rttm, convertedSegs, hok]
  · intro g hg
    refine ⟨(hval g hg).1, (hval g hg).2, ?_⟩
    rcases List.exists_cons_of_ne_nil (hval g hg).2 with ⟨a, t, he⟩
    rw [he]
    rfl

theorem parseFloat_dd (a b : ℕ) (ha : a < 10) (hb : b < 10) :
    parseFloat (String.mk [digitChar48 a, '.', digitChar48 b]) =
      some ((a : ℚ) + (b : ℚ) / 10) := by
  have hd1 := digitChar48_isDigit a ha
  have hd2 := digitChar48_isDigit b hb
  have ht := takeWhile_append_stop (fun c => c != '.') [digitChar48 a] '.' [digitChar48 b]
    (by intro c hc; simp only [List.mem_singleton] at hc; subst hc; exact isDigit_bne_dot _ hd1)
    (by decide)
  rw [parseFloat]
  simp only [toList_mk]
  rw [if_neg (digitChar48_ne_minus a ha), if_neg (digitChar48_ne_plus a ha)]
  have hshape : (digitChar48 a :: ['.', digitChar48 b]) =
      [digitChar48 a] ++ '.' :: [digitChar48 b] := by simp
  rw [hshape]
  simp only [parseUnsigned, ht.1, ht.2]
  have hcond : (([digitChar48 a] : List Char) ≠ [] ∨ ([digitChar48 b] : List Char) ≠ []) ∧
      ([digitChar48 a] : List Char).all Char.isDigit = true ∧
      ([digitChar48 b] : List Char).all Char.isDigit = true := by
    refine ⟨Or.inl (by simp), by simp [hd1], by simp [hd2]⟩
  rw [if_pos hcond]
  have hva : natOfDigits [digitChar48 a] = a := by
    simp [natOfDigits, digitChar48_toNat a ha]
  have hvb : natOfDigits [digitChar48 b] = b := by
    simp [natOfDigits, digitChar48_toNat b hb]
  rw [hva, hvb]
  norm_num

/-- Witness for C3 at the spec scenario table. -/
theorem convert_csv_to_rttm_spec_witness :
    convert_csv_to_rttm "dir/test.csv"
        "Word, Start_ms, End_ms, Score, Speaker\nhi, 0.0, 0.5, 0.9, A\nthere, 0.6, 1.0, 0.8, A\nyo, 0.2, 0.4, 0.7, B" =
      .ok (String.intercalate "\n"
        ((convertedSegs [⟨0, 1/2, "A"⟩, ⟨3/5, 1, "A"⟩, ⟨1/5, 2/5, "B"⟩]).map
          (list_to_rttm_string (file_id_of_path "dir/test.csv")))) := by
  refine (convert_csv_to_rttm_spec "dir/test.csv" _ [⟨0, 1/2, "A"⟩, ⟨3/5, 1, "A"⟩, ⟨1/5, 2/5, "B"⟩] ?_).1
  have hlines : ((pySplitOn
      "Word, Start_ms, End_ms, Score, Speaker\nhi, 0.0, 0.5, 0.9, A\nthere, 0.6, 1.0, 0.8, A\nyo, 0.2, 0.4, 0.7, B"
      "\n").drop 1).filter (fun w => w != "") =
      ["hi, 0.0, 0.5, 0.9, A", "there, 0.6, 1.0, 0.8, A", "yo, 0.2, 0.4, 0.7, B"] := by
    decide
  have hp1 : parseCsvLine "hi, 0.0, 0.5, 0.9, A" = .ok ⟨0, 1/2, "A"⟩ := by
    have hsp : pySplitOn "hi, 0.0, 0.5, 0.9, A" ", " = ["hi", "0.0", "0.5", "0.9", "A"] := by
      decide
    have he1 : ("0.0" : String) = String.mk [digitChar48 0, '.', digitChar48 0] := by decide
    have he2 : ("0.5" : String) = String.mk [digitChar48 0, '.', digitChar48 5] := by decide
    simp only [parseCsvLine, hsp, he1, he2,
      parseFloat_dd 0 0 (by norm_num) (by norm_num),
      parseFloat_dd 0 5 (by norm_num) (by norm_num)]
    norm_num
  have hp2 : parseCsvLine "there, 0.6, 1.0, 0.8, A" = .ok ⟨3/5, 1, "A"⟩ := by
    have hsp : pySplitOn "there, 0.6, 1.0, 0.8, A" ", " = ["there", "0.6", "1.0", "0.8", "A"] := by
      decide
    have he1 : ("0.6" : String) = String.mk [digitChar48 0, '.', digitChar48 6] := by decide
    have he2 : ("1.0" : String) = String.mk [digitChar48 1, '.', digitChar48 0] := by decide
    simp only [parseCsvLine, hsp, he1, he2,
      parseFloat_dd 0 6 (by norm_num) (by norm_num),
      parseFloat_dd 1 0 (by norm_num) (by norm_num)]
    norm_num
  have hp3 : parseCsvLine "yo, 0.2, 0.4, 0.7, B" = .ok ⟨1/5, 2/5, "B"⟩ := by
    have hsp : pySplitOn "yo, 0.2, 0.4, 0.7, B" ", " = ["yo", "0.2", "0.4", "0.7", "B"] := by
      decide
    have he1 : ("0.2" : String) = String.mk [digitChar48 0, '.', digitChar48 2] := by decide
    have he2 : ("0.4" : String) = String.mk [digitChar48 0, '.', digitChar48 4] := by decide
    simp only [parseCsvLine, hsp, he1, he2,
      parseFloat_dd 0 2 (by norm_num) (by norm_num),
      parseFloat_dd 0 4 (by norm_num) (by norm_num)]
    norm_num
  rw [hlines]
  simp [parseCsvLines, hp1, hp2, hp3]
